import Mathlib

/-!
Verification of the ai-assistant indexing and retrieval core.

This file gives a shallow embedding, in Lean, of the parts of the program
that the specification talks about:

* `retrieval_system.py` — the `KeywordRetriever` (inverted index, TF-IDF
  scoring, ranked retrieval);
* `file_handler.py` — `FileProcessor.get_file_type` and
  `FileProcessor.chunk_document`;
* `file_batch_processor.py` — `BatchProcessor` jobs, `process_directory`,
  `get_progress`;
* `file_index.py` — `FileIndex` (records, directory entries, hashing,
  staleness) and `FileIndexBuilder.index_directory`;
* `app.py` — `_find_relevant_snippet` and the snippet fallback in
  `search_files`.

Modelling conventions, used throughout:

* Python `dict`s are association lists with Python insertion-order
  semantics (`dictGet` / `dictInsert` / `dictRemove` below): updating an
  existing key keeps its position, a new key is appended at the end.
* Strings are modelled as `List Char`; Python `str.lower` and the regex
  character class `\w` are modelled on their ASCII behaviour.
* Floats are modelled as real numbers; `math.log` is `Real.log`.
* The filesystem is an explicit value (`FS`): a finite map from absolute,
  already-normalised paths (component lists) to file entries carrying the
  byte content, an mtime stamp and a readability flag.  `os.path.abspath`
  is therefore the identity, `os.path.dirname` drops the last component
  and `os.path.basename` takes it.
* MD5 is an explicit function argument `md5 : List Char → String`;
  theorems that need collision freedom take injectivity as a hypothesis.
* Raising an exception is modelled with `Except`; a bare `except:` around
  an operation is a `match` on that `Except`.
* Wall-clock data (timestamps of records, durations) and the metadata
  payloads of PDF/DOCX extraction carry no information used by any
  property below and are left out of the records.
* Concurrency in the batch processor is serialised: jobs are processed one
  after the other, in submission order, and the per-job callback runs
  right after its job, which is one of the completion orders the thread
  pool may produce.  All the properties proved about it are counting
  properties that do not depend on the interleaving.
* The snapshot persistence (`_save_index`) rewrites the whole structure;
  the in-memory state is the snapshot, so persistence is the identity in
  the model.
-/

/-! ## Python dictionaries as insertion-ordered association lists -/

/-- Python `d.get(k)` / `k in d`: the first (unique) binding of `k`. -/
def dictGet {α β : Type} [DecidableEq α] (d : List (α × β)) (k : α) : Option β :=
  (d.find? (fun p => p.1 = k)).map (fun p => p.2)

/-- Python `d[k] = v`: update in place if `k` is bound (bindings are unique,
so updating the first binding is updating the binding), else append at the
end, which is exactly the insertion-order semantics of a Python dict. -/
def dictInsert {α β : Type} [DecidableEq α] : List (α × β) → α → β → List (α × β)
  | [], k, v => [(k, v)]
  | p :: d, k, v => if p.1 = k then (k, v) :: d else p :: dictInsert d k v

/-- Python `del d[k]`: drop the binding of `k`. -/
def dictRemove {α β : Type} [DecidableEq α] (d : List (α × β)) (k : α) :
    List (α × β) :=
  d.filter (fun p => ¬ p.1 = k)

/-- Python `list.remove(x)`: drop the first occurrence of `x`. -/
def listRemoveFirst {α : Type} [DecidableEq α] : List α → α → List α
  | [], _ => []
  | y :: ys, x => if y = x then ys else y :: listRemoveFirst ys x

theorem dictGet_nil {α β : Type} [DecidableEq α] (k : α) :
    dictGet ([] : List (α × β)) k = none := rfl

theorem dictGet_cons {α β : Type} [DecidableEq α] (p : α × β) (d : List (α × β)) (k : α) :
    dictGet (p :: d) k = if p.1 = k then some p.2 else dictGet d k := by
  by_cases h : p.1 = k <;> simp [dictGet, List.find?_cons, h]

theorem dictGet_insert_self {α β : Type} [DecidableEq α] (d : List (α × β)) (k : α) (v : β) :
    dictGet (dictInsert d k v) k = some v := by
  induction d with
  | nil => simp [dictInsert, dictGet_cons]
  | cons p d ih =>
    rw [dictInsert]
    by_cases hp : p.1 = k
    · simp [hp, dictGet_cons]
    · rw [if_neg hp, dictGet_cons, if_neg hp]
      exact ih

theorem dictGet_insert_ne {α β : Type} [DecidableEq α] (d : List (α × β)) (k k' : α) (v : β)
    (h : k ≠ k') : dictGet (dictInsert d k v) k' = dictGet d k' := by
  induction d with
  | nil => simp [dictInsert, dictGet_cons, dictGet_nil, if_neg h]
  | cons p d ih =>
    rw [dictInsert]
    by_cases hp : p.1 = k
    · rw [if_pos hp, dictGet_cons, dictGet_cons, if_neg h,
        if_neg (show ¬ p.1 = k' by rw [hp]; exact h)]
    · rw [if_neg hp, dictGet_cons, dictGet_cons]
      by_cases hk' : p.1 = k'
      · simp [hk']
      · rw [if_neg hk', if_neg hk']
        exact ih

theorem dictGet_append_right {α β : Type} [DecidableEq α] (d e : List (α × β)) (k : α)
    (h : dictGet d k = none) : dictGet (d ++ e) k = dictGet e k := by
  induction d with
  | nil => rfl
  | cons p d ih =>
    rw [dictGet_cons] at h
    by_cases hp : p.1 = k
    · simp [hp] at h
    · rw [List.cons_append, dictGet_cons, if_neg hp]
      exact ih (by simpa [hp] using h)

/-- Keys of a dictionary. -/
def dictKeys {α β : Type} (d : List (α × β)) : List α := d.map (fun p => p.1)

theorem dictGet_isSome_of_any {α β : Type} [DecidableEq α] (d : List (α × β)) (k : α)
    (h : d.any (fun p => p.1 = k)) : (dictGet d k).isSome := by
  induction d with
  | nil => simp at h
  | cons p d ih =>
    rw [dictGet_cons]
    by_cases hp : p.1 = k
    · simp [hp]
    · simp only [if_neg hp]
      simp only [List.any_cons, hp] at h
      exact ih (by simpa [hp] using h)

theorem dictGet_none_iff {α β : Type} [DecidableEq α] (d : List (α × β)) (k : α) :
    dictGet d k = none ↔ ∀ p ∈ d, p.1 ≠ k := by
  simp [dictGet, List.find?_eq_none]

theorem dictKeys_insert_of_mem {α β : Type} [DecidableEq α] (d : List (α × β)) (k : α) (v : β)
    (h : k ∈ dictKeys d) : dictKeys (dictInsert d k v) = dictKeys d := by
  induction d with
  | nil => simp [dictKeys] at h
  | cons p d ih =>
    rw [dictInsert]
    by_cases hp : p.1 = k
    · simp [dictKeys, hp]
    · rw [if_neg hp]
      simp only [dictKeys, List.map_cons, List.mem_cons] at h
      rcases h with h | h
      · exact absurd h.symm hp
      · simp only [dictKeys, List.map_cons]
        rw [show List.map (fun p => p.1) (dictInsert d k v) = dictKeys (dictInsert d k v) from rfl,
          ih h]
        rfl

theorem dictKeys_insert_of_not_mem {α β : Type} [DecidableEq α] (d : List (α × β)) (k : α)
    (v : β) (h : k ∉ dictKeys d) :
    dictKeys (dictInsert d k v) = dictKeys d ++ [k] := by
  induction d with
  | nil => simp [dictInsert, dictKeys]
  | cons p d ih =>
    simp only [dictKeys, List.map_cons, List.mem_cons] at h
    push_neg at h
    rw [dictInsert, if_neg (fun hp => h.1 hp.symm)]
    simp only [dictKeys, List.map_cons, List.cons_append, List.cons.injEq, true_and]
    exact ih h.2

/-! ## retrieval_system.py — KeywordRetriever

`_tokenize` is `re.findall(r'\w+', text.lower())`: the lowered text split
into maximal runs of word characters.  The regex class `\w` is modelled on
its ASCII behaviour (letters, digits, underscore).  Text is `List Char`.
-/

/-- ASCII reading of the regex character class in `_tokenize`. -/
def isWordChar (c : Char) : Bool := c.isAlphanum || c = '_'

/-- Accumulating scanner behind `tokenize`: `acc` is the current (reversed)
run of word characters. -/
def tokenizeAux : List Char → List Char → List (List Char)
  | [], [] => []
  | [], acc => [acc.reverse]
  | c :: cs, acc =>
    if isWordChar c then tokenizeAux cs (c :: acc)
    else if acc.isEmpty then tokenizeAux cs []
    else acc.reverse :: tokenizeAux cs []

/-- KeywordRetriever._tokenize. -/
def tokenize (text : List Char) : List (List Char) :=
  tokenizeAux (text.map Char.toLower) []

/-- An input to `add_document`: a dict with an optional id and a content
string (structured JSON/CSV content is serialised before tokenization by
the source; the claims below only involve string content). -/
structure DocIn where
  id : Option Nat
  content : List Char

/-- A document as stored in `KeywordRetriever.documents` after
`add_document` assigned it an id. -/
structure IndexedDoc where
  id : Nat
  content : List Char
deriving DecidableEq

/-- State of a KeywordRetriever: the document list and the inverted index
token → (document id → term frequency). -/
structure KeywordRetriever where
  documents : List IndexedDoc
  index : List (List Char × List (Nat × Nat))

def emptyKR : KeywordRetriever := ⟨[], []⟩

/-- The token-indexing loop of `add_document`: for each token occurrence,
start the token bucket at the empty dict if absent and bump the count of
`docId` by one. -/
def addTokens (index : List (List Char × List (Nat × Nat))) (tokens : List (List Char))
    (docId : Nat) : List (List Char × List (Nat × Nat)) :=
  tokens.foldl (fun idx token =>
    let m := (dictGet idx token).getD []
    dictInsert idx token (dictInsert m docId ((dictGet m docId).getD 0 + 1))) index

/-- KeywordRetriever.add_document: assign `len(documents)` as the id when
absent, append the document, then index its tokens. -/
def add_document (r : KeywordRetriever) (doc : DocIn) : KeywordRetriever :=
  let docId := doc.id.getD r.documents.length
  { documents := r.documents ++ [⟨docId, doc.content⟩],
    index := addTokens r.index (tokenize doc.content) docId }

/-- KeywordRetriever._calculate_score: sum of tf · ln(N/df) over the given
query tokens, skipping tokens absent from the index or from the document. -/
noncomputable def calculate_score (r : KeywordRetriever) (queryTokens : List (List Char))
    (docId : Nat) : ℝ :=
  queryTokens.foldl (fun score token =>
    match dictGet r.index token with
    | none => score
    | some m =>
      match dictGet m docId with
      | none => score
      | some tf => score + (tf : ℝ) * Real.log ((r.documents.length : ℝ) / (m.length : ℝ)))
    0

/-- The score-accumulation loop of `retrieve`: for each query token in
order, for each document in that token 's bucket in insertion order, start
the document at score 0 if absent and add `_calculate_score([token], id)`. -/
noncomputable def buildScores (r : KeywordRetriever) (queryTokens : List (List Char)) :
    List (Nat × ℝ) :=
  queryTokens.foldl (fun scores token =>
    match dictGet r.index token with
    | none => scores
    | some m =>
      m.foldl (fun sc entry =>
        dictInsert sc entry.1 ((dictGet sc entry.1).getD 0 + calculate_score r [token] entry.1))
        scores)
    []

/-- Descending-by-score comparison used by `sorted(..., key=lambda x:
scores[x], reverse=True)`; sorting the (id, score) pairs by this relation
with a stable sort is exactly Python 's stable descending sort of the keys
by their scores. -/
def scoreGE (p q : Nat × ℝ) : Prop := q.2 ≤ p.2

noncomputable instance : DecidableRel scoreGE := fun p q => Real.decidableLE q.2 p.2

instance : IsTotal (Nat × ℝ) scoreGE := ⟨fun p q => (le_total q.2 p.2).elim Or.inl Or.inr⟩

instance : IsTrans (Nat × ℝ) scoreGE := ⟨fun _ _ _ h1 h2 => le_trans h2 h1⟩

/-- A retrieval result: a copy of the stored document with its
`relevance_score` annotation. -/
structure RetrievedDoc where
  id : Nat
  content : List Char
  relevance_score : ℝ

/-- The dict comprehension `id_to_doc` in `retrieve` (later documents with
a duplicate id overwrite earlier ones, as in Python). -/
def idToDoc (docs : List IndexedDoc) : List (Nat × IndexedDoc) :=
  docs.foldl (fun d doc => dictInsert d doc.id doc) []

/-- KeywordRetriever.retrieve. -/
noncomputable def retrieve (r : KeywordRetriever) (query : List Char) (top_k : Nat) :
    List RetrievedDoc :=
  let query_tokens := tokenize query
  let scores := buildScores r query_tokens
  let result_ids := ((scores.insertionSort scoreGE).map (fun p => p.1)).take top_k
  result_ids.filterMap (fun i =>
    (dictGet (idToDoc r.documents) i).map (fun doc =>
      { id := doc.id, content := doc.content,
        relevance_score := (dictGet scores i).getD 0 }))

/-! Specification-side quantities for the retriever, written directly over
the document list (the theorems connect the incrementally built inverted
index to these). -/

/-- Number of stored documents whose token list contains `t`. -/
def docsContaining (docs : List IndexedDoc) (t : List Char) : Nat :=
  (docs.filter (fun d => t ∈ tokenize d.content)).length

/-- The inverted-index bucket for `t` that a correctly built index must
hold: one entry per document containing `t`, in insertion order, mapping
the id to the term frequency. -/
def indexEntry (docs : List IndexedDoc) (t : List Char) : List (Nat × Nat) :=
  (docs.filter (fun d => t ∈ tokenize d.content)).map
    (fun d => (d.id, (tokenize d.content).count t))

/-- Score of document `d` as the spec formula reads on the code: sum over
the query-token occurrences of tf(t, d) · ln(N / df(t)). -/
noncomputable def scoreSpec (docs : List IndexedDoc) (qts : List (List Char))
    (d : IndexedDoc) : ℝ :=
  (qts.map (fun t => ((tokenize d.content).count t : ℝ)
      * Real.log ((docs.length : ℝ) / (docsContaining docs t : ℝ)))).sum

/-- Index correctness invariant: each token 's bucket is exactly
`indexEntry`, and tokens contained in no document are absent. -/
def InvKR (r : KeywordRetriever) : Prop :=
  ∀ t, dictGet r.index t =
    if indexEntry r.documents t = [] then none else some (indexEntry r.documents t)

/-! Lemmas connecting the incrementally built inverted index with
`indexEntry`. -/

theorem dictInsert_dictInsert_same {α β : Type} [DecidableEq α] (d : List (α × β)) (k : α)
    (v w : β) : dictInsert (dictInsert d k v) k w = dictInsert d k w := by
  induction d with
  | nil => simp [dictInsert]
  | cons p d ih =>
    by_cases hp : p.1 = k
    · simp [dictInsert, hp]
    · simp [dictInsert, hp, ih]

theorem dictInsert_eq_append {α β : Type} [DecidableEq α] (d : List (α × β)) (k : α) (v : β)
    (h : dictGet d k = none) : dictInsert d k v = d ++ [(k, v)] := by
  induction d with
  | nil => rfl
  | cons p d ih =>
    rw [dictGet_cons] at h
    by_cases hp : p.1 = k
    · simp [hp] at h
    · rw [dictInsert, if_neg hp, List.cons_append, ih (by simpa [hp] using h)]

/-- Bumping the count of `docId` in a token bucket by `k` occurrences. -/
def bumpBy (m : List (Nat × Nat)) (docId k : Nat) : List (Nat × Nat) :=
  dictInsert m docId ((dictGet m docId).getD 0 + k)

theorem bumpBy_bumpBy (m : List (Nat × Nat)) (d a b : Nat) :
    bumpBy (bumpBy m d a) d b = bumpBy m d (a + b) := by
  unfold bumpBy
  rw [dictGet_insert_self, dictInsert_dictInsert_same]
  simp [Nat.add_assoc]

theorem addTokens_dictGet (ts : List (List Char)) (idx : List (List Char × List (Nat × Nat)))
    (docId : Nat) (t : List Char) :
    dictGet (addTokens idx ts docId) t =
      if ts.count t = 0 then dictGet idx t
      else some (bumpBy ((dictGet idx t).getD []) docId (ts.count t)) := by
  induction ts generalizing idx with
  | nil => simp [addTokens]
  | cons u ts ih =>
    have hstep : addTokens idx (u :: ts) docId =
        addTokens (dictInsert idx u (bumpBy ((dictGet idx u).getD []) docId 1)) ts docId := rfl
    rw [hstep]
    by_cases htu : t = u
    · subst htu
      rw [ih]
      rw [dictGet_insert_self]
      have hc : (t :: ts).count t = ts.count t + 1 := List.count_cons_self t ts
      by_cases h0 : ts.count t = 0
      · rw [if_pos h0, hc, h0, if_neg (show ¬ 0 + 1 = 0 by omega), Nat.zero_add]
      · rw [if_neg h0, hc, if_neg (show ¬ ts.count t + 1 = 0 by omega)]
        simp only [Option.getD_some]
        rw [bumpBy_bumpBy, Nat.add_comm 1 (ts.count t)]
    · rw [ih, dictGet_insert_ne _ _ _ _ (fun h => htu h.symm)]
      have hc : (u :: ts).count t = ts.count t := List.count_cons_of_ne htu ts
      rw [hc]

theorem indexEntry_key_mem {docs : List IndexedDoc} {t : List Char} {p : Nat × Nat}
    (h : p ∈ indexEntry docs t) : p.1 ∈ docs.map (fun d => d.id) := by
  unfold indexEntry at h
  rcases List.mem_map.1 h with ⟨d, hd, rfl⟩
  exact List.mem_map.2 ⟨d, (List.mem_filter.1 hd).1, rfl⟩

theorem indexEntry_append_single (docs : List IndexedDoc) (d : IndexedDoc) (t : List Char) :
    indexEntry (docs ++ [d]) t =
      indexEntry docs t ++
        (if t ∈ tokenize d.content then [(d.id, (tokenize d.content).count t)] else []) := by
  unfold indexEntry
  rw [List.filter_append, List.map_append]
  congr 1
  by_cases h : t ∈ tokenize d.content <;> simp [h]

theorem InvKR_empty : InvKR emptyKR := by
  intro t
  simp [emptyKR, indexEntry, dictGet]

theorem InvKR_add_document {r : KeywordRetriever} (doc : DocIn)
    (hinv : InvKR r)
    (hfresh : doc.id.getD r.documents.length ∉ r.documents.map (fun d => d.id)) :
    InvKR (add_document r doc) := by
  intro t
  set docId := doc.id.getD r.documents.length with hdocId
  set d : IndexedDoc := ⟨docId, doc.content⟩ with hd
  have hdocs : (add_document r doc).documents = r.documents ++ [d] := rfl
  have hidx : (add_document r doc).index = addTokens r.index (tokenize doc.content) docId := rfl
  rw [hdocs, hidx, indexEntry_append_single, addTokens_dictGet]
  have hcnt : (tokenize d.content).count t = (tokenize doc.content).count t := rfl
  by_cases hmem : t ∈ tokenize d.content
  · have h0 : (tokenize doc.content).count t ≠ 0 := by
      rw [← hcnt]
      exact Nat.pos_iff_ne_zero.1 (List.count_pos_iff.2 hmem)
    rw [if_neg h0, if_pos hmem, hinv t]
    by_cases hE : indexEntry r.documents t = []
    · rw [if_pos hE, hE]
      simp only [Option.getD_none, List.nil_append]
      rw [if_neg (by simp)]
      unfold bumpBy
      rw [show dictGet ([] : List (Nat × Nat)) docId = none from rfl]
      simp [dictInsert, hcnt]
    · rw [if_neg hE]
      simp only [Option.getD_some]
      rw [if_neg (by simp)]
      have hget : dictGet (indexEntry r.documents t) docId = none := by
        rw [dictGet_none_iff]
        intro p hp hcontra
        exact hfresh (hcontra ▸ indexEntry_key_mem hp)
      unfold bumpBy
      rw [hget, dictInsert_eq_append _ _ _ hget]
      simp [hcnt]
  · have h0 : (tokenize doc.content).count t = 0 := by
      rw [← hcnt]
      exact List.count_eq_zero.2 hmem
    rw [if_pos h0, if_neg hmem, List.append_nil]
    exact hinv t

theorem documents_foldl_isPrefix : ∀ (ds : List DocIn) (r : KeywordRetriever),
    r.documents <+: (List.foldl add_document r ds).documents
  | [], _ => List.prefix_refl _
  | d :: ds, r => by
    have h1 : (add_document r d).documents = r.documents ++ [⟨d.id.getD r.documents.length,
        d.content⟩] := rfl
    have h2 := documents_foldl_isPrefix ds (add_document r d)
    rw [List.foldl_cons]
    exact List.IsPrefix.trans ⟨_, h1.symm⟩ h2

theorem InvKR_foldl : ∀ (ds : List DocIn) (r : KeywordRetriever), InvKR r →
    ((List.foldl add_document r ds).documents.map (fun d => d.id)).Nodup →
    InvKR (List.foldl add_document r ds)
  | [], _, hinv, _ => hinv
  | d :: ds, r, hinv, hnd => by
    rw [List.foldl_cons] at *
    apply InvKR_foldl ds (add_document r d) _ hnd
    apply InvKR_add_document d hinv
    have hpre : (add_document r d).documents <+: (List.foldl add_document (add_document r d)
        ds).documents := documents_foldl_isPrefix ds (add_document r d)
    have hnd' : ((add_document r d).documents.map (fun x => x.id)).Nodup :=
      ((hpre.map (fun x => x.id)).sublist).nodup hnd
    have hD : (add_document r d).documents = r.documents ++ [⟨d.id.getD r.documents.length,
        d.content⟩] := rfl
    rw [hD, List.map_append, List.nodup_append] at hnd'
    intro hmem
    rcases hnd' with ⟨_, _, hdisj⟩
    exact hdisj hmem (by simp)

/-! More dictionary lemmas used by the score characterisation. -/

theorem dictGet_isSome_iff_mem_keys {α β : Type} [DecidableEq α] (d : List (α × β)) (k : α) :
    (dictGet d k).isSome ↔ k ∈ dictKeys d := by
  induction d with
  | nil => simp [dictGet, dictKeys]
  | cons p d ih =>
    rw [dictGet_cons]
    by_cases hp : p.1 = k
    · simp [hp, dictKeys]
    · simp only [if_neg hp, dictKeys, List.map_cons, List.mem_cons]
      rw [ih]
      constructor
      · exact fun h => Or.inr h
      · rintro (h | h)
        · exact absurd h.symm hp
        · exact h

theorem dictGet_of_mem_nodup {α β : Type} [DecidableEq α] {d : List (α × β)} {k : α} {v : β}
    (hnd : (dictKeys d).Nodup) (h : (k, v) ∈ d) : dictGet d k = some v := by
  induction d with
  | nil => simp at h
  | cons p d ih =>
    rw [dictGet_cons]
    rcases List.mem_cons.1 h with h | h
    · rw [← h]
      simp
    · simp only [dictKeys, List.map_cons, List.nodup_cons] at hnd
      have hne : ¬ p.1 = k := by
        intro he
        exact hnd.1 (he ▸ List.mem_map.2 ⟨(k, v), h, rfl⟩)
      rw [if_neg hne]
      exact ih hnd.2 h

theorem dictKeys_nodup_insert {α β : Type} [DecidableEq α] (d : List (α × β)) (k : α) (v : β)
    (h : (dictKeys d).Nodup) : (dictKeys (dictInsert d k v)).Nodup := by
  by_cases hk : k ∈ dictKeys d
  · rw [dictKeys_insert_of_mem _ _ _ hk]; exact h
  · rw [dictKeys_insert_of_not_mem _ _ _ hk]
    simpa [List.nodup_append] using ⟨h, fun he => hk he⟩

/-! Characterisation of `_calculate_score` and of the score dict built by
`retrieve`, for a retriever whose index satisfies `InvKR`. -/

/-- Contribution of one query token to the score of document id `i`, read
off the index (zero when the token or the document is absent). -/
noncomputable def tokenContrib (r : KeywordRetriever) (i : Nat) (t : List Char) : ℝ :=
  match dictGet r.index t with
  | none => 0
  | some m =>
    match dictGet m i with
    | none => 0
    | some tf => (tf : ℝ) * Real.log ((r.documents.length : ℝ) / (m.length : ℝ))

theorem calculate_score_eq_sum (r : KeywordRetriever) (qts : List (List Char)) (i : Nat) :
    calculate_score r qts i = (qts.map (tokenContrib r i)).sum := by
  unfold calculate_score
  have haux : ∀ (ts : List (List Char)) (a : ℝ),
      ts.foldl (fun score token =>
        match dictGet r.index token with
        | none => score
        | some m =>
          match dictGet m i with
          | none => score
          | some tf => score + (tf : ℝ) * Real.log ((r.documents.length : ℝ) / (m.length : ℝ))) a
      = a + (ts.map (tokenContrib r i)).sum := by
    intro ts
    induction ts with
    | nil => intro a; simp
    | cons t ts ih =>
      intro a
      rw [List.foldl_cons, ih, List.map_cons, List.sum_cons]
      rcases h1 : dictGet r.index t with _ | m
      · simp [tokenContrib, h1]
      · rcases h2 : dictGet m i with _ | tf
        · simp [tokenContrib, h1, h2]
        · simp [tokenContrib, h1, h2, add_assoc]
  rw [haux]
  simp

theorem calculate_score_single (r : KeywordRetriever) (t : List Char) (i : Nat) :
    calculate_score r [t] i = tokenContrib r i t := by
  rw [calculate_score_eq_sum]
  simp

/-- Whether the bucket of token `t` contains document id `i`. -/
def bucketHit (r : KeywordRetriever) (t : List Char) (i : Nat) : Bool :=
  match dictGet r.index t with
  | none => false
  | some m => decide (i ∈ dictKeys m)

/-- Whether any of the query tokens hits document id `i` in the index. -/
def inSomeBucket (r : KeywordRetriever) (qts : List (List Char)) (i : Nat) : Bool :=
  qts.any (fun t => bucketHit r t i)

theorem tokenContrib_eq_zero_of_no_hit {r : KeywordRetriever} {t : List Char} {i : Nat}
    (h : bucketHit r t i = false) : tokenContrib r i t = 0 := by
  unfold bucketHit at h
  rcases hidx : dictGet r.index t with _ | m
  · simp [tokenContrib, hidx]
  · rw [hidx] at h
    simp only [decide_eq_false_iff_not] at h
    have hnone : dictGet m i = none := by
      rcases hO : dictGet m i with _ | v
      · rfl
      · exact absurd ((dictGet_isSome_iff_mem_keys m i).1 (by rw [hO]; rfl)) h
    simp [tokenContrib, hidx, hnone]

theorem sum_tokenContrib_eq_zero {r : KeywordRetriever} {qts : List (List Char)} {i : Nat}
    (h : inSomeBucket r qts i = false) : (qts.map (tokenContrib r i)).sum = 0 := by
  induction qts with
  | nil => simp
  | cons t ts ih =>
    simp only [inSomeBucket, List.any_cons, Bool.or_eq_false_iff] at h
    rw [List.map_cons, List.sum_cons, tokenContrib_eq_zero_of_no_hit h.1, ih h.2, add_zero]

/-- The inner loop of the score build for one token bucket `m`. -/
theorem buildScores_inner (r : KeywordRetriever) (t : List Char) (m : List (Nat × Nat))
    (hnd : (dictKeys m).Nodup) :
    ∀ (sc : List (Nat × ℝ)) (i : Nat),
      dictGet (m.foldl (fun sc entry =>
          dictInsert sc entry.1
            ((dictGet sc entry.1).getD 0 + calculate_score r [t] entry.1)) sc) i =
        if i ∈ dictKeys m then some ((dictGet sc i).getD 0 + calculate_score r [t] i)
        else dictGet sc i := by
  induction m with
  | nil => intro sc i; simp [dictKeys]
  | cons p m ih =>
    intro sc i
    simp only [dictKeys, List.map_cons, List.nodup_cons] at hnd
    rw [List.foldl_cons, ih hnd.2,
      show dictKeys (p :: m) = p.1 :: dictKeys m from rfl]
    by_cases hi : i ∈ dictKeys m
    · rw [if_pos hi, if_pos (show i ∈ p.1 :: dictKeys m from List.mem_cons_of_mem _ hi)]
      have hne : p.1 ≠ i := fun he => hnd.1 (by
        simpa [dictKeys] using (he ▸ hi : p.1 ∈ dictKeys m))
      rw [dictGet_insert_ne _ _ _ _ hne]
    · rw [if_neg hi]
      by_cases hip : i = p.1
      · rw [hip, dictGet_insert_self,
          if_pos (show p.1 ∈ p.1 :: dictKeys m from List.mem_cons_self _ _)]
      · rw [dictGet_insert_ne _ _ _ _ (fun he => hip he.symm),
          if_neg (show ¬ i ∈ p.1 :: dictKeys m from by
            intro hc
            rcases List.mem_cons.1 hc with hc | hc
            · exact hip hc
            · exact hi hc)]

theorem buildScores_inner_keys_nodup (r : KeywordRetriever) (t : List Char)
    (m : List (Nat × Nat)) :
    ∀ (sc : List (Nat × ℝ)), (dictKeys sc).Nodup →
      (dictKeys (m.foldl (fun sc entry =>
          dictInsert sc entry.1
            ((dictGet sc entry.1).getD 0 + calculate_score r [t] entry.1)) sc)).Nodup := by
  induction m with
  | nil => intro sc h; exact h
  | cons p m ih =>
    intro sc h
    rw [List.foldl_cons]
    exact ih _ (dictKeys_nodup_insert _ _ _ h)

/-- Characterisation of the score dict built by `retrieve`, relative to an
arbitrary starting accumulator. -/
theorem buildScores_aux (r : KeywordRetriever)
    (hK : ∀ t m, dictGet r.index t = some m → (dictKeys m).Nodup) :
    ∀ (qts : List (List Char)) (sc0 : List (Nat × ℝ)) (i : Nat),
      dictGet (qts.foldl (fun scores token =>
          match dictGet r.index token with
          | none => scores
          | some m =>
            m.foldl (fun sc entry =>
              dictInsert sc entry.1
                ((dictGet sc entry.1).getD 0 + calculate_score r [token] entry.1)) scores) sc0) i =
        if inSomeBucket r qts i then
          some ((dictGet sc0 i).getD 0 + (qts.map (tokenContrib r i)).sum)
        else dictGet sc0 i := by
  intro qts
  induction qts with
  | nil => intro sc0 i; simp [inSomeBucket]
  | cons t ts ih =>
    intro sc0 i
    rw [List.foldl_cons]
    have hstep : inSomeBucket r (t :: ts) i = (bucketHit r t i || inSomeBucket r ts i) := by
      simp [inSomeBucket]
    rcases hidx : dictGet r.index t with _ | m
    · have hhit : bucketHit r t i = false := by simp [bucketHit, hidx]
      have hcontrib : tokenContrib r i t = 0 := tokenContrib_eq_zero_of_no_hit hhit
      rw [ih sc0 i, hstep, hhit, Bool.false_or, List.map_cons, List.sum_cons, hcontrib, zero_add]
    · rw [ih _ i]
      have hinner := buildScores_inner r t m (hK t m hidx) sc0 i
      by_cases hhit : i ∈ dictKeys m
      · have hb : bucketHit r t i = true := by simp [bucketHit, hidx, hhit]
        rw [hinner, if_pos hhit]
        rw [hstep, hb, Bool.true_or, if_pos rfl]
        by_cases hrest : inSomeBucket r ts i = true
        · rw [if_pos hrest]
          simp only [Option.getD_some, List.map_cons, List.sum_cons]
          rw [calculate_score_single, add_assoc]
        · rw [if_neg (by simp [hrest])]
          have hz : (List.map (tokenContrib r i) ts).sum = 0 :=
            sum_tokenContrib_eq_zero (Bool.eq_false_iff.2 hrest)
          rw [List.map_cons, List.sum_cons, hz, add_zero, calculate_score_single]
      · have hb : bucketHit r t i = false := by simp [bucketHit, hidx, hhit]
        have hcontrib : tokenContrib r i t = 0 := tokenContrib_eq_zero_of_no_hit hb
        rw [hinner, if_neg hhit, hstep, hb, Bool.false_or, List.map_cons, List.sum_cons,
          hcontrib, zero_add]

theorem buildScores_get (r : KeywordRetriever)
    (hK : ∀ t m, dictGet r.index t = some m → (dictKeys m).Nodup)
    (qts : List (List Char)) (i : Nat) :
    dictGet (buildScores r qts) i =
      if inSomeBucket r qts i then some ((qts.map (tokenContrib r i)).sum) else none := by
  have h := buildScores_aux r hK qts [] i
  unfold buildScores
  rw [h]
  by_cases hb : inSomeBucket r qts i <;> simp [hb, dictGet]

theorem buildScores_keys_nodup (r : KeywordRetriever) (qts : List (List Char)) :
    (dictKeys (buildScores r qts)).Nodup := by
  unfold buildScores
  have haux : ∀ (ts : List (List Char)) (sc0 : List (Nat × ℝ)), (dictKeys sc0).Nodup →
      (dictKeys (ts.foldl (fun scores token =>
        match dictGet r.index token with
        | none => scores
        | some m =>
          m.foldl (fun sc entry =>
            dictInsert sc entry.1
              ((dictGet sc entry.1).getD 0 + calculate_score r [token] entry.1)) scores)
        sc0)).Nodup := by
    intro ts
    induction ts with
    | nil => intro sc0 h; exact h
    | cons t ts ih =>
      intro sc0 h
      rw [List.foldl_cons]
      rcases hidx : dictGet r.index t with _ | m
      · exact ih sc0 h
      · exact ih _ (buildScores_inner_keys_nodup r t m sc0 h)
  exact haux qts [] (by simp [dictKeys])

/-! Linking the index buckets to the document list under `InvKR`. -/

theorem indexEntry_length (docs : List IndexedDoc) (t : List Char) :
    (indexEntry docs t).length = docsContaining docs t := by
  simp [indexEntry, docsContaining]

theorem indexEntry_keys_nodup {docs : List IndexedDoc}
    (hnd : (docs.map (fun d => d.id)).Nodup) (t : List Char) :
    (dictKeys (indexEntry docs t)).Nodup := by
  have : dictKeys (indexEntry docs t) =
      (docs.filter (fun d => t ∈ tokenize d.content)).map (fun d => d.id) := by
    simp [dictKeys, indexEntry]
  rw [this]
  exact ((docs.filter_sublist).map (fun d => d.id)).nodup hnd

theorem dictGet_indexEntry {docs : List IndexedDoc} {d : IndexedDoc}
    (hnd : (docs.map (fun x => x.id)).Nodup) (hd : d ∈ docs) (t : List Char) :
    dictGet (indexEntry docs t) d.id =
      if t ∈ tokenize d.content then some ((tokenize d.content).count t) else none := by
  by_cases hm : t ∈ tokenize d.content
  · rw [if_pos hm]
    apply dictGet_of_mem_nodup (indexEntry_keys_nodup hnd t)
    unfold indexEntry
    exact List.mem_map.2 ⟨d, List.mem_filter.2 ⟨hd, by simpa using hm⟩, rfl⟩
  · rw [if_neg hm]
    rw [dictGet_none_iff]
    intro p hp he
    unfold indexEntry at hp
    rcases List.mem_map.1 hp with ⟨d', hd', rfl⟩
    rcases List.mem_filter.1 hd' with ⟨hd'docs, hd't⟩
    have : d' = d := List.inj_on_of_nodup_map hnd hd'docs hd he
    rw [this] at hd't
    exact hm (by simpa using hd't)

theorem bucket_keys_nodup_of_InvKR {r : KeywordRetriever} (hinv : InvKR r)
    (hnd : (r.documents.map (fun x => x.id)).Nodup) :
    ∀ t m, dictGet r.index t = some m → (dictKeys m).Nodup := by
  intro t m hm
  have h := hinv t
  rw [hm] at h
  by_cases hE : indexEntry r.documents t = []
  · rw [if_pos hE] at h; exact absurd h (by simp)
  · rw [if_neg hE] at h
    rw [Option.some.inj h]
    exact indexEntry_keys_nodup hnd t

theorem tokenContrib_spec {r : KeywordRetriever} {d : IndexedDoc} (hinv : InvKR r)
    (hnd : (r.documents.map (fun x => x.id)).Nodup) (hd : d ∈ r.documents) (t : List Char) :
    tokenContrib r d.id t =
      ((tokenize d.content).count t : ℝ) *
        Real.log ((r.documents.length : ℝ) / (docsContaining r.documents t : ℝ)) := by
  have h := hinv t
  by_cases hE : indexEntry r.documents t = []
  · rw [if_pos hE] at h
    have hfilter : r.documents.filter (fun x => decide (t ∈ tokenize x.content)) = [] := by
      have hE' : (r.documents.filter (fun x => decide (t ∈ tokenize x.content))).map
          (fun x => (x.id, (tokenize x.content).count t)) = [] := hE
      exact List.map_eq_nil_iff.1 hE'
    have hcnt : (tokenize d.content).count t = 0 := by
      apply List.count_eq_zero.2
      intro hm
      have hdf : d ∈ r.documents.filter (fun x => decide (t ∈ tokenize x.content)) :=
        List.mem_filter.2 ⟨hd, by simpa using hm⟩
      rw [hfilter] at hdf
      exact absurd hdf (List.not_mem_nil d)
    simp only [tokenContrib, h]
    rw [hcnt]
    simp
  · rw [if_neg hE] at h
    have hget := dictGet_indexEntry hnd hd t
    by_cases hm : t ∈ tokenize d.content
    · rw [if_pos hm] at hget
      simp only [tokenContrib, h, hget]
      rw [indexEntry_length]
    · rw [if_neg hm] at hget
      have hcnt : (tokenize d.content).count t = 0 := List.count_eq_zero.2 hm
      simp only [tokenContrib, h, hget]
      rw [hcnt]
      simp

theorem scoreSpec_eq_sum_tokenContrib {r : KeywordRetriever} {d : IndexedDoc}
    (hinv : InvKR r) (hnd : (r.documents.map (fun x => x.id)).Nodup)
    (hd : d ∈ r.documents) (qts : List (List Char)) :
    scoreSpec r.documents qts d = (qts.map (tokenContrib r d.id)).sum := by
  unfold scoreSpec
  congr 1
  apply List.map_congr_left
  intro t _
  rw [tokenContrib_spec hinv hnd hd t]

/-! Stability of the stable descending sort: on a list whose entries carry
strictly increasing tags, the sorted output is pairwise ordered by the
lexicographic "score strictly greater, or equal score and smaller tag". -/

theorem orderedInsert_pairwise_lex (tag : Nat × ℝ → Nat) (x : Nat × ℝ) :
    ∀ l : List (Nat × ℝ),
      l.Pairwise (fun a b => b.2 < a.2 ∨ (a.2 = b.2 ∧ tag a < tag b)) →
      l.Sorted scoreGE →
      (∀ y ∈ l, tag x < tag y) →
      (l.orderedInsert scoreGE x).Pairwise
        (fun a b => b.2 < a.2 ∨ (a.2 = b.2 ∧ tag a < tag b)) := by
  intro l
  induction l with
  | nil => intro _ _ _; simp [List.orderedInsert]
  | cons b l ih =>
    intro hpw hsorted htag
    rw [List.orderedInsert]
    by_cases hxb : scoreGE x b
    · rw [if_pos hxb]
      refine List.Pairwise.cons ?_ hpw
      intro y hy
      rcases List.mem_cons.1 hy with rfl | hyl
      · rcases lt_or_eq_of_le hxb with hlt | heq
        · exact Or.inl hlt
        · exact Or.inr ⟨heq.symm, htag _ (List.mem_cons_self _ _)⟩
      · have hyb : scoreGE b y := (List.sorted_cons.1 hsorted).1 y hyl
        have hyx : y.2 ≤ x.2 := le_trans hyb hxb
        rcases lt_or_eq_of_le hyx with hlt | heq
        · exact Or.inl hlt
        · exact Or.inr ⟨heq.symm, htag _ (List.mem_cons_of_mem _ hyl)⟩
    · rw [if_neg hxb]
      have hbx : x.2 < b.2 := lt_of_not_le hxb
      refine List.Pairwise.cons ?_ ?_
      · intro y hy
        rcases (List.mem_orderedInsert scoreGE).1 hy with rfl | hyl
        · exact Or.inl hbx
        · exact (List.pairwise_cons.1 hpw).1 y hyl
      · exact ih (List.pairwise_cons.1 hpw).2 (List.sorted_cons.1 hsorted).2
          (fun y hy => htag y (List.mem_cons_of_mem _ hy))

theorem insertionSort_pairwise_lex (tag : Nat × ℝ → Nat) :
    ∀ l : List (Nat × ℝ), l.Pairwise (fun a b => tag a < tag b) →
      (l.insertionSort scoreGE).Pairwise
        (fun a b => b.2 < a.2 ∨ (a.2 = b.2 ∧ tag a < tag b)) := by
  intro l
  induction l with
  | nil => intro _; simp [List.insertionSort]
  | cons x l ih =>
    intro hpw
    rw [List.insertionSort]
    exact orderedInsert_pairwise_lex tag x _
      (ih (List.pairwise_cons.1 hpw).2)
      (List.sorted_insertionSort scoreGE l)
      (fun y hy => (List.pairwise_cons.1 hpw).1 y
        ((List.mem_insertionSort scoreGE).1 hy))

/-- A dictionary with distinct keys is pairwise increasing in the position
of its keys in `dictKeys`. -/
theorem pairwise_indexOf_keys {β : Type} [DecidableEq β] :
    ∀ (L : List Nat) (l : List (Nat × β)), dictKeys l = L → L.Nodup →
      l.Pairwise (fun p q => L.indexOf p.1 < L.indexOf q.1) := by
  intro L
  induction L with
  | nil =>
    intro l hL _
    cases l with
    | nil => exact List.Pairwise.nil
    | cons p l => exact absurd hL (by simp [dictKeys])
  | cons a L ih =>
    intro l hL hnd
    cases l with
    | nil => exact List.Pairwise.nil
    | cons p l =>
      simp only [dictKeys, List.map_cons, List.cons.injEq] at hL
      rcases hL with ⟨hpa, hrest⟩
      rcases List.nodup_cons.1 hnd with ⟨haL, hndL⟩
      refine List.Pairwise.cons ?_ ?_
      · intro q hq
        have hqL : q.1 ∈ L := by
          rw [← hrest]
          exact List.mem_map.2 ⟨q, hq, rfl⟩
        have hqa : q.1 ≠ a := fun he => haL (he ▸ hqL)
        rw [hpa, List.indexOf_cons_self, List.indexOf_cons_ne _ (fun he => hqa he.symm)]
        exact Nat.succ_pos _
      · have hpairs := ih l hrest hndL
        refine List.Pairwise.imp_of_mem ?_ hpairs
        intro q q' hq hq' hlt
        have hne : ∀ x : Nat × β, x ∈ l → x.1 ≠ a := by
          intro x hx he
          apply haL
          rw [← hrest, ← he]
          exact List.mem_map.2 ⟨x, hx, rfl⟩
        rw [List.indexOf_cons_ne _ (fun he => hne q hq he.symm),
          List.indexOf_cons_ne _ (fun he => hne q' hq' he.symm)]
        exact Nat.succ_lt_succ hlt

/-! Lemmas about the `id_to_doc` dictionary built inside `retrieve`. -/

theorem dictGet_some_mem {α β : Type} [DecidableEq α] {k : α} {v : β} :
    ∀ {d : List (α × β)}, dictGet d k = some v → (k, v) ∈ d := by
  intro d
  induction d with
  | nil => intro h; simp [dictGet] at h
  | cons q d ih =>
    obtain ⟨qk, qv⟩ := q
    intro h
    rw [dictGet_cons] at h
    by_cases hq : qk = k
    · rw [if_pos hq] at h
      have hv : qv = v := Option.some.inj h
      rw [← hq, ← hv]
      exact List.mem_cons_self _ _
    · rw [if_neg hq] at h
      exact List.mem_cons_of_mem _ (ih h)

theorem mem_dictInsert {α β : Type} [DecidableEq α] {p : α × β} {k : α} {v : β} :
    ∀ {d : List (α × β)}, p ∈ dictInsert d k v → p = (k, v) ∨ p ∈ d := by
  intro d
  induction d with
  | nil => intro h; simpa [dictInsert] using h
  | cons q d ih =>
    intro h
    rw [dictInsert] at h
    by_cases hq : q.1 = k
    · rw [if_pos hq] at h
      rcases List.mem_cons.1 h with h | h
      · exact Or.inl h
      · exact Or.inr (List.mem_cons_of_mem _ h)
    · rw [if_neg hq] at h
      rcases List.mem_cons.1 h with h | h
      · exact Or.inr (h ▸ List.mem_cons_self _ _)
      · rcases ih h with h | h
        · exact Or.inl h
        · exact Or.inr (List.mem_cons_of_mem _ h)

theorem idToDoc_key_eq : ∀ (docs : List IndexedDoc) (acc : List (Nat × IndexedDoc)),
    (∀ p ∈ acc, p.1 = p.2.id) →
    ∀ p ∈ docs.foldl (fun a doc => dictInsert a doc.id doc) acc, p.1 = p.2.id := by
  intro docs
  induction docs with
  | nil => intro acc hacc p hp; exact hacc p hp
  | cons x rest ih =>
    intro acc hacc p hp
    rw [List.foldl_cons] at hp
    apply ih _ _ p hp
    intro q hq
    rcases mem_dictInsert hq with h | h
    · rw [h]
    · exact hacc q h

theorem idToDoc_get_of_not_mem : ∀ (docs : List IndexedDoc) (acc : List (Nat × IndexedDoc))
    (i : Nat), (∀ x ∈ docs, x.id ≠ i) →
    dictGet (docs.foldl (fun a doc => dictInsert a doc.id doc) acc) i = dictGet acc i := by
  intro docs
  induction docs with
  | nil => intro acc i _; rfl
  | cons x rest ih =>
    intro acc i hne
    rw [List.foldl_cons, ih _ _ (fun y hy => hne y (List.mem_cons_of_mem _ hy)),
      dictGet_insert_ne _ _ _ _ (hne x (List.mem_cons_self _ _))]

theorem dictGet_idToDoc_self {docs : List IndexedDoc}
    (hnd : (docs.map (fun x => x.id)).Nodup) {d : IndexedDoc} (hd : d ∈ docs) :
    dictGet (idToDoc docs) d.id = some d := by
  unfold idToDoc
  have haux : ∀ (l : List IndexedDoc) (acc : List (Nat × IndexedDoc)),
      (l.map (fun x => x.id)).Nodup → d ∈ l →
      dictGet (l.foldl (fun a doc => dictInsert a doc.id doc) acc) d.id = some d := by
    intro l
    induction l with
    | nil => intro acc _ hmem; simp at hmem
    | cons x rest ih =>
      intro acc hnd' hmem
      rw [List.map_cons, List.nodup_cons] at hnd'
      rw [List.foldl_cons]
      rcases List.mem_cons.1 hmem with rfl | hmem'
      · rw [idToDoc_get_of_not_mem rest _ d.id
          (fun y hy he => hnd'.1 (he ▸ List.mem_map.2 ⟨y, hy, rfl⟩)),
          dictGet_insert_self]
      · exact ih _ hnd'.2 hmem'
  exact haux docs [] hnd hd

theorem idToDoc_get_id {docs : List IndexedDoc} {i : Nat} {d : IndexedDoc}
    (h : dictGet (idToDoc docs) i = some d) : d.id = i := by
  have hmem := dictGet_some_mem h
  exact (idToDoc_key_eq docs [] (by intro p hp; simp at hp) (i, d) hmem).symm

/-- Every key of the built score dict is the id of a stored document that
contains at least one query token, and its value is that document 's
spec score. -/
theorem scores_entry_doc {r : KeywordRetriever} (hinv : InvKR r)
    (hnd : (r.documents.map (fun x => x.id)).Nodup) (qts : List (List Char))
    {p : Nat × ℝ} (hp : p ∈ buildScores r qts) :
    ∃ d ∈ r.documents, d.id = p.1 ∧ (∃ t ∈ qts, t ∈ tokenize d.content) ∧
      p.2 = scoreSpec r.documents qts d := by
  have hK := bucket_keys_nodup_of_InvKR hinv hnd
  have hkeysnd := buildScores_keys_nodup r qts
  have hget : dictGet (buildScores r qts) p.1 = some p.2 :=
    dictGet_of_mem_nodup hkeysnd (by rwa [show (p.1, p.2) = p from rfl])
  have hchar := buildScores_get r hK qts p.1
  rw [hget] at hchar
  by_cases hb : inSomeBucket r qts p.1
  · rw [if_pos hb] at hchar
    have hsum : p.2 = (qts.map (tokenContrib r p.1)).sum := Option.some.inj hchar
    rcases List.any_eq_true.1 hb with ⟨t, ht, hhit⟩
    unfold bucketHit at hhit
    rcases hidx : dictGet r.index t with _ | m
    · rw [hidx] at hhit; simp at hhit
    · rw [hidx] at hhit
      have hkm : p.1 ∈ dictKeys m := of_decide_eq_true hhit
      have hival := hinv t
      rw [hidx] at hival
      by_cases hE : indexEntry r.documents t = []
      · rw [if_pos hE] at hival; exact absurd hival (by simp)
      · rw [if_neg hE] at hival
        rw [Option.some.inj hival] at hkm
        have : dictKeys (indexEntry r.documents t) =
            (r.documents.filter (fun x => decide (t ∈ tokenize x.content))).map
              (fun x => x.id) := by
          simp [dictKeys, indexEntry]
        rw [this] at hkm
        rcases List.mem_map.1 hkm with ⟨d, hdf, hdid⟩
        rcases List.mem_filter.1 hdf with ⟨hddocs, hdt⟩
        refine ⟨d, hddocs, hdid, ⟨t, ht, by simpa using hdt⟩, ?_⟩
        rw [hsum, ← hdid, ← scoreSpec_eq_sum_tokenContrib hinv hnd hddocs qts]
  · rw [if_neg hb] at hchar
    exact absurd hchar (by simp)

/-- Unfolding equation for `retrieve`. -/
theorem retrieve_eq (r : KeywordRetriever) (query : List Char) (top_k : Nat) :
    retrieve r query top_k =
      ((((buildScores r (tokenize query)).insertionSort scoreGE).map
          (fun p => p.1)).take top_k).filterMap
        (fun i => (dictGet (idToDoc r.documents) i).map (fun doc =>
          { id := doc.id, content := doc.content,
            relevance_score := (dictGet (buildScores r (tokenize query)) i).getD 0 })) := rfl

/-- Master characterisation of `retrieve` over a well-formed retriever:
at most `top_k` results; every result is a stored document containing at
least one query token, annotated with the score formula; and results are
ordered by score descending with ties in first-encounter order of the
score dict. -/
theorem retrieve_characterization (r : KeywordRetriever) (hinv : InvKR r)
    (hnd : (r.documents.map (fun x => x.id)).Nodup) (query : List Char) (top_k : Nat) :
    (retrieve r query top_k).length ≤ top_k ∧
    (∀ e ∈ retrieve r query top_k, ∃ d ∈ r.documents, e.id = d.id ∧ e.content = d.content ∧
      (∃ t ∈ tokenize query, t ∈ tokenize d.content) ∧
      e.relevance_score = scoreSpec r.documents (tokenize query) d) ∧
    (retrieve r query top_k).Pairwise (fun a b =>
      b.relevance_score < a.relevance_score ∨
        (a.relevance_score = b.relevance_score ∧
          (dictKeys (buildScores r (tokenize query))).indexOf a.id <
            (dictKeys (buildScores r (tokenize query))).indexOf b.id)) := by
  have hknd := buildScores_keys_nodup r (tokenize query)
  have hperm := List.perm_insertionSort scoreGE (buildScores r (tokenize query))
  have hmem_tk : ∀ p, p ∈ (((buildScores r (tokenize query)).insertionSort scoreGE).take top_k)
      → p ∈ buildScores r (tokenize query) := by
    intro p hp
    exact hperm.subset ((List.take_sublist _ _).subset hp)
  have hentry : ∀ p, p ∈ buildScores r (tokenize query) →
      dictGet (buildScores r (tokenize query)) p.1 = some p.2 := by
    intro p hp
    exact dictGet_of_mem_nodup hknd (by rwa [show (p.1, p.2) = p from rfl])
  rw [retrieve_eq, ← List.map_take, List.filterMap_map]
  refine ⟨?_, ?_, ?_⟩
  · calc ((((buildScores r (tokenize query)).insertionSort scoreGE).take top_k).filterMap
          _).length
        ≤ (((buildScores r (tokenize query)).insertionSort scoreGE).take top_k).length :=
          List.length_filterMap_le _ _
      _ ≤ top_k := by rw [List.length_take]; exact min_le_left _ _
  · intro e he
    rcases List.mem_filterMap.1 he with ⟨p, hp, hgp⟩
    have hpsc := hmem_tk p hp
    rcases scores_entry_doc hinv hnd (tokenize query) hpsc with ⟨d, hd, hdid, htk, hsc⟩
    have hidd : dictGet (idToDoc r.documents) p.1 = some d := by
      rw [← hdid]
      exact dictGet_idToDoc_self hnd hd
    simp only [Function.comp_apply, hidd, Option.map_some'] at hgp
    have he' := Option.some.inj hgp
    refine ⟨d, hd, ?_, ?_, htk, ?_⟩
    · rw [← he']
    · rw [← he']
    · rw [← he']
      simp only [hentry p hpsc, Option.getD_some]
      exact hsc
  · have htags := pairwise_indexOf_keys (dictKeys (buildScores r (tokenize query)))
      (buildScores r (tokenize query)) rfl hknd
    have hsortpw := insertionSort_pairwise_lex
      (fun p => (dictKeys (buildScores r (tokenize query))).indexOf p.1)
      (buildScores r (tokenize query)) htags
    have htkpw := hsortpw.sublist (List.take_sublist top_k
      ((buildScores r (tokenize query)).insertionSort scoreGE))
    apply List.pairwise_filterMap.2
    refine List.Pairwise.imp_of_mem ?_ htkpw
    intro p q hpmem hqmem hlex
    intro e hep e' heq
    simp only [Option.mem_def, Function.comp_apply] at hep heq
    rcases Option.map_eq_some'.1 hep with ⟨dp, hdp, hedp⟩
    rcases Option.map_eq_some'.1 heq with ⟨dq, hdq, hedq⟩
    have hpsc := hmem_tk p hpmem
    have hqsc := hmem_tk q hqmem
    have hpe : e.relevance_score = p.2 := by
      rw [← hedp]
      simp only [hentry p hpsc, Option.getD_some]
    have hqe : e'.relevance_score = q.2 := by
      rw [← hedq]
      simp only [hentry q hqsc, Option.getD_some]
    have hpid : e.id = p.1 := by
      rw [← hedp]
      exact idToDoc_get_id hdp
    have hqid : e'.id = q.1 := by
      rw [← hedq]
      exact idToDoc_get_id hdq
    rw [hpe, hqe, hpid, hqid]
    exact hlex

def exDocsA : List DocIn :=
  [⟨some 1, "alpha beta".toList⟩, ⟨some 2, "beta gamma".toList⟩,
   ⟨some 3, "alpha alpha gamma".toList⟩]

def exA : KeywordRetriever := List.foldl add_document emptyKR exDocsA

theorem exA_index_alpha : dictGet exA.index ("alpha".toList) = some [(1, 1), (3, 2)] := by
  decide

theorem exA_tok : tokenize ("alpha".toList) = ["alpha".toList] := by decide

theorem exA_len : exA.documents.length = 3 := by decide

theorem exA_nodup : (exA.documents.map (fun d => d.id)).Nodup := by decide

theorem exA_score1 : calculate_score exA ["alpha".toList] 1 = Real.log ((3:ℝ)/2) := by
  unfold calculate_score
  simp only [List.foldl_cons, List.foldl_nil, exA_index_alpha]
  rw [show dictGet [(1, 1), (3, 2)] 1 = some 1 from by decide]
  simp only [exA_len]
  norm_num

theorem exA_score3 : calculate_score exA ["alpha".toList] 3 = 2 * Real.log ((3:ℝ)/2) := by
  unfold calculate_score
  simp only [List.foldl_cons, List.foldl_nil, exA_index_alpha]
  rw [show dictGet [(1, 1), (3, 2)] 3 = some 2 from by decide]
  simp only [exA_len]
  norm_num

theorem exA_scores : buildScores exA (tokenize ("alpha".toList)) =
    [(1, Real.log ((3:ℝ)/2)), (3, 2 * Real.log ((3:ℝ)/2))] := by
  rw [exA_tok]
  unfold buildScores
  simp only [List.foldl_cons, List.foldl_nil, exA_index_alpha]
  simp [dictInsert, dictGet, List.find?]
  exact ⟨exA_score1, exA_score3⟩

theorem exA_sorted :
    ([(1, Real.log ((3:ℝ)/2)), (3, 2 * Real.log ((3:ℝ)/2))] : List (Nat × ℝ)).insertionSort
      scoreGE = [(3, 2 * Real.log ((3:ℝ)/2)), (1, Real.log ((3:ℝ)/2))] := by
  have hL : 0 < Real.log ((3:ℝ)/2) := Real.log_pos (by norm_num)
  rw [List.insertionSort, List.insertionSort, List.insertionSort]
  rw [List.orderedInsert, List.orderedInsert,
    if_neg (show ¬ scoreGE (1, Real.log ((3:ℝ)/2)) (3, 2 * Real.log ((3:ℝ)/2)) from by
      unfold scoreGE
      simp only
      intro hc
      linarith),
    List.orderedInsert]

theorem exA_retrieve : (retrieve exA ("alpha".toList) 3).map (fun e => e.id) = [3, 1] := by
  rw [retrieve_eq, exA_scores, exA_sorted]
  have h3 : dictGet (idToDoc exA.documents) 3 = some ⟨3, "alpha alpha gamma".toList⟩ := by
    decide
  have h1 : dictGet (idToDoc exA.documents) 1 = some ⟨1, "alpha beta".toList⟩ := by decide
  simp [List.filterMap_cons, h3, h1]

def exDocsB : List DocIn := [⟨some 1, "beta".toList⟩, ⟨some 2, "alpha".toList⟩]

def exB : KeywordRetriever := List.foldl add_document emptyKR exDocsB

theorem exB_score_a2 : calculate_score exB ["alpha".toList] 2 = Real.log 2 := by
  unfold calculate_score
  simp only [List.foldl_cons, List.foldl_nil,
    show dictGet exB.index ("alpha".toList) = some [(2, 1)] from by decide]
  rw [show dictGet [(2, 1)] 2 = some 1 from by decide]
  simp only [show exB.documents.length = 2 from by decide]
  norm_num

theorem exB_score_b1 : calculate_score exB ["beta".toList] 1 = Real.log 2 := by
  unfold calculate_score
  simp only [List.foldl_cons, List.foldl_nil,
    show dictGet exB.index ("beta".toList) = some [(1, 1)] from by decide]
  rw [show dictGet [(1, 1)] 1 = some 1 from by decide]
  simp only [show exB.documents.length = 2 from by decide]
  norm_num

theorem exB_scores : buildScores exB (tokenize ("alpha beta".toList)) =
    [(2, Real.log 2), (1, Real.log 2)] := by
  rw [show tokenize ("alpha beta".toList) = ["alpha".toList, "beta".toList] from by decide]
  unfold buildScores
  simp only [List.foldl_cons, List.foldl_nil,
    show dictGet exB.index ("alpha".toList) = some [(2, 1)] from by decide,
    show dictGet exB.index ("beta".toList) = some [(1, 1)] from by decide]
  simp [dictInsert, dictGet, List.find?]
  exact ⟨exB_score_a2, exB_score_b1⟩

theorem exB_sorted :
    ([(2, Real.log 2), (1, Real.log 2)] : List (Nat × ℝ)).insertionSort scoreGE =
      [(2, Real.log 2), (1, Real.log 2)] := by
  rw [List.insertionSort, List.insertionSort, List.insertionSort]
  rw [List.orderedInsert, List.orderedInsert,
    if_pos (show scoreGE (2, Real.log 2) (1, Real.log 2) from le_refl _)]

theorem exB_retrieve :
    (retrieve exB ("alpha beta".toList) 3).map (fun e => e.id) = [2, 1] ∧
    (retrieve exB ("alpha beta".toList) 3).map (fun e => e.relevance_score) =
      [Real.log 2, Real.log 2] := by
  rw [retrieve_eq, exB_scores, exB_sorted]
  have h2 : dictGet (idToDoc exB.documents) 2 = some ⟨2, "alpha".toList⟩ := by decide
  have h1 : dictGet (idToDoc exB.documents) 1 = some ⟨1, "beta".toList⟩ := by decide
  constructor <;> simp [List.filterMap_cons, h2, h1, dictGet, List.find?]

theorem exB2_scores : buildScores exB (tokenize ("alpha alpha".toList)) =
    [(2, Real.log 2 + Real.log 2)] := by
  rw [show tokenize ("alpha alpha".toList) = ["alpha".toList, "alpha".toList] from by decide]
  unfold buildScores
  simp only [List.foldl_cons, List.foldl_nil,
    show dictGet exB.index ("alpha".toList) = some [(2, 1)] from by decide]
  simp [dictInsert, dictGet, List.find?]
  rw [show calculate_score exB [['a', 'l', 'p', 'h', 'a']] 2 = Real.log 2 from exB_score_a2]

theorem exB2_retrieve :
    (retrieve exB ("alpha alpha".toList) 3).map (fun e => e.relevance_score) =
      [Real.log 2 + Real.log 2] := by
  rw [retrieve_eq, exB2_scores]
  rw [show ([(2, Real.log 2 + Real.log 2)] : List (Nat × ℝ)).insertionSort scoreGE =
      [(2, Real.log 2 + Real.log 2)] from by rw [List.insertionSort, List.insertionSort,
        List.orderedInsert]]
  have h2 : dictGet (idToDoc exB.documents) 2 = some ⟨2, "alpha".toList⟩ := by decide
  simp [List.filterMap_cons, h2, dictGet, List.find?]

def exDocC : DocIn := ⟨some 1, "alpha alpha".toList⟩

def exC : KeywordRetriever := add_document emptyKR exDocC

theorem exC_score : calculate_score exC ["alpha".toList] 1 = 0 := by
  unfold calculate_score
  simp only [List.foldl_cons, List.foldl_nil,
    show dictGet exC.index ("alpha".toList) = some [(1, 2)] from by decide]
  rw [show dictGet [(1, 2)] 1 = some 2 from by decide]
  simp only [show exC.documents.length = 1 from by decide]
  norm_num

theorem exC_scores : buildScores exC (tokenize ("alpha".toList)) = [(1, 0)] := by
  rw [show tokenize ("alpha".toList) = ["alpha".toList] from by decide]
  unfold buildScores
  simp only [List.foldl_cons, List.foldl_nil,
    show dictGet exC.index ("alpha".toList) = some [(1, 2)] from by decide]
  simp [dictInsert, dictGet, List.find?]
  exact exC_score

theorem exC_retrieve :
    (retrieve exC ("alpha".toList) 3).map (fun e => e.relevance_score) = [(0:ℝ)] := by
  rw [retrieve_eq, exC_scores]
  rw [show ([(1, (0:ℝ))] : List (Nat × ℝ)).insertionSort scoreGE = [(1, 0)] from by
    rw [List.insertionSort, List.insertionSort, List.orderedInsert]]
  have h1 : dictGet (idToDoc exC.documents) 1 = some ⟨1, "alpha alpha".toList⟩ := by decide
  have hsv : dictGet ([(1, (0:ℝ))] : List (Nat × ℝ)) 1 = some 0 := by
    simp [dictGet, List.find?]
  simp [List.filterMap_cons, h1, hsv]

theorem single_doc_aux (doc : DocIn) :
    InvKR (add_document emptyKR doc) ∧
    ((add_document emptyKR doc).documents.map (fun d => d.id)).Nodup ∧
    (add_document emptyKR doc).documents.length = 1 := by
  have hdocs : (add_document emptyKR doc).documents =
      [⟨doc.id.getD 0, doc.content⟩] := rfl
  refine ⟨InvKR_add_document doc InvKR_empty (by simp [emptyKR]), ?_, ?_⟩
  · rw [hdocs]
    simp
  · rw [hdocs]
    rfl

theorem single_doc_score_zero_aux (doc : DocIn) (query : List Char) (top_k : Nat) :
    (add_document emptyKR doc).documents.length = 1 ∧
    (∀ t m, dictGet (add_document emptyKR doc).index t = some m →
      m.length = 1 ∧
      Real.log (((add_document emptyKR doc).documents.length : ℝ) / (m.length : ℝ)) = 0) ∧
    (∀ e ∈ retrieve (add_document emptyKR doc) query top_k, e.relevance_score = 0) := by
  obtain ⟨hinv, hnd, hlen⟩ := single_doc_aux doc
  have hdocs : (add_document emptyKR doc).documents =
      [⟨doc.id.getD 0, doc.content⟩] := rfl
  refine ⟨hlen, ?_, ?_⟩
  · intro t m hm
    have h := hinv t
    rw [hm] at h
    by_cases hE : indexEntry (add_document emptyKR doc).documents t = []
    · rw [if_pos hE] at h; exact absurd h (by simp)
    · rw [if_neg hE] at h
      have hme : m = indexEntry (add_document emptyKR doc).documents t := Option.some.inj h
      rw [hdocs] at hme hE
      have hml : m.length = 1 := by
        by_cases hdt : t ∈ tokenize doc.content
        · rw [hme]
          unfold indexEntry
          simp [hdt]
        · exfalso
          apply hE
          unfold indexEntry
          simp [hdt]
      refine ⟨hml, ?_⟩
      rw [hml, hlen]
      norm_num
  · intro e he
    have hchar := retrieve_characterization (add_document emptyKR doc) hinv hnd query top_k
    rcases hchar.2.1 e he with ⟨d, hd, _, _, _, hsc⟩
    rw [hdocs] at hd
    have hdd : d = ⟨doc.id.getD 0, doc.content⟩ := List.mem_singleton.1 hd
    rw [hsc]
    unfold scoreSpec
    apply List.sum_eq_zero
    intro x hx
    rcases List.mem_map.1 hx with ⟨t, _, rfl⟩
    by_cases hcnt : (tokenize d.content).count t = 0
    · rw [hcnt]; simp
    · have hdt : t ∈ tokenize d.content := List.count_pos_iff.1 (Nat.pos_of_ne_zero hcnt)
      have hdc : docsContaining (add_document emptyKR doc).documents t = 1 := by
        rw [hdocs]
        unfold docsContaining
        rw [← hdd]
        simp [hdt]
      rw [hdc, hlen]
      norm_num

/-- C1 (counterexample): on documents id 1 "beta", id 2 "alpha" (insertion
order [1, 2]) the query "alpha beta" produces a tie (both scores ln 2),
yet `retrieve` returns [2, 1] — ties are broken by the order in which
documents are first encountered while scanning query tokens, not by
insertion order; and on the query "alpha alpha" the returned score is
ln 2 + ln 2, not the claimed sum over (distinct) matching tokens, which
is ln 2. -/
theorem retrieve_tie_duplicate_counterexample :
    exB.documents.map (fun d => d.id) = [1, 2] ∧
    (retrieve exB ("alpha beta".toList) 3).map (fun e => e.relevance_score) =
      [Real.log 2, Real.log 2] ∧
    (retrieve exB ("alpha beta".toList) 3).map (fun e => e.id) = [2, 1] ∧
    ([2, 1] : List Nat) ≠ [1, 2] ∧
    (retrieve exB ("alpha alpha".toList) 3).map (fun e => e.relevance_score) =
      [Real.log 2 + Real.log 2] ∧
    Real.log 2 + Real.log 2 ≠ Real.log 2 := by
  refine ⟨by decide, exB_retrieve.2, exB_retrieve.1, by decide, exB2_retrieve, ?_⟩
  intro hc
  have h2 : (0:ℝ) < Real.log 2 := Real.log_pos one_lt_two
  linarith

/-- C1 (amended): for every collection of documents added via
`add_document` whose resulting ids are pairwise distinct, and every query
and `top_k`, `retrieve` returns at most `top_k` results; every result is a
stored document containing at least one query token, annotated with a
relevance score equal to the sum over query-token occurrences (counting a
token once per occurrence in the query) of
termFrequency(token, doc) · ln(totalDocuments / documentsContainingToken);
results are ordered by score descending with ties broken by the order in
which documents are first encountered while scanning the query tokens in
order (for a single-token query this is insertion order); and in
particular, for documents id 1 "alpha beta", id 2 "beta gamma",
id 3 "alpha alpha gamma", querying "alpha" returns document 3 ranked
above document 1 and excludes document 2. -/
theorem retrieve_spec_C1 (ds : List DocIn) (query : List Char) (top_k : Nat)
    (hnd : ((List.foldl add_document emptyKR ds).documents.map (fun d => d.id)).Nodup) :
    ((retrieve (List.foldl add_document emptyKR ds) query top_k).length ≤ top_k ∧
      (∀ e ∈ retrieve (List.foldl add_document emptyKR ds) query top_k,
        ∃ d ∈ (List.foldl add_document emptyKR ds).documents, e.id = d.id ∧
          e.content = d.content ∧ (∃ t ∈ tokenize query, t ∈ tokenize d.content) ∧
          e.relevance_score =
            scoreSpec (List.foldl add_document emptyKR ds).documents (tokenize query) d) ∧
      (retrieve (List.foldl add_document emptyKR ds) query top_k).Pairwise (fun a b =>
        b.relevance_score < a.relevance_score ∨
          (a.relevance_score = b.relevance_score ∧
            (dictKeys (buildScores (List.foldl add_document emptyKR ds)
                (tokenize query))).indexOf a.id <
              (dictKeys (buildScores (List.foldl add_document emptyKR ds)
                (tokenize query))).indexOf b.id))) ∧
    ((retrieve exA ("alpha".toList) 3).map (fun e => e.id) = [3, 1] ∧
      (2 : Nat) ∉ (retrieve exA ("alpha".toList) 3).map (fun e => e.id)) := by
  constructor
  · exact retrieve_characterization _ (InvKR_foldl ds emptyKR InvKR_empty hnd) hnd query top_k
  · refine ⟨exA_retrieve, ?_⟩
    rw [exA_retrieve]
    decide

theorem retrieve_spec_C1_witness :
    ((List.foldl add_document emptyKR exDocsA).documents.map (fun d => d.id)).Nodup ∧
    (retrieve (List.foldl add_document emptyKR exDocsA) ("alpha".toList) 3).length ≤ 3 := by
  refine ⟨by decide, ?_⟩
  exact (retrieve_spec_C1 exDocsA ("alpha".toList) 3 (by decide)).1.1

/-- C6 (counterexample): for the one-document corpus id 1 "alpha alpha"
and the query "alpha", the returned relevance score is 0, while the pure
term frequency of "alpha" in the document is 2 — the score does not
reduce to the term frequency, it is annihilated by the ln(1) = 0 factor. -/
theorem single_doc_score_counterexample :
    (retrieve exC ("alpha".toList) 3).map (fun e => e.relevance_score) = [(0 : ℝ)] ∧
    (tokenize exDocC.content).count ("alpha".toList) = 2 ∧
    ((0 : ℝ) ≠ ((tokenize exDocC.content).count ("alpha".toList) : ℝ)) := by
  refine ⟨exC_retrieve, by decide, ?_⟩
  rw [show (tokenize exDocC.content).count ("alpha".toList) = 2 from by decide]
  norm_num

/-- C6 (amended): for a corpus containing exactly one document, the IDF
factor evaluates to ln(1) = 0 for every token present in the index, and
consequently every retrieval score is 0 (term frequency times zero), not
the pure term frequency. -/
theorem single_doc_score_zero (doc : DocIn) (query : List Char) (top_k : Nat) :
    (add_document emptyKR doc).documents.length = 1 ∧
    (∀ t m, dictGet (add_document emptyKR doc).index t = some m →
      m.length = 1 ∧
      Real.log (((add_document emptyKR doc).documents.length : ℝ) / (m.length : ℝ)) = 0) ∧
    (∀ e ∈ retrieve (add_document emptyKR doc) query top_k, e.relevance_score = 0) :=
  single_doc_score_zero_aux doc query top_k

/-! ## Filesystem model shared by file_index.py, file_batch_processor.py
and file_handler.py

Paths are lists of components, already absolute and normalised, so
`os.path.abspath` is the identity, `os.path.dirname` is `List.dropLast`
and `os.path.basename` is the last component. -/

abbrev FPath := List String

/-- One file on disk: its bytes, an mtime stamp, and whether opening it
for reading succeeds (the bare `except:` in `_get_file_hash` catches any
read failure and falls back to the mtime). -/
structure FSFile where
  content : String
  mtime : Nat
  readable : Bool
deriving DecidableEq, Repr

/-- The filesystem: a finite map from absolute paths to files. -/
abbrev FS := List (FPath × FSFile)

def basename (p : FPath) : String := p.getLastD ""

/-- os.walk over `dir`: every file whose path properly extends `dir`. -/
def walkFiles (fs : FS) (dir : FPath) : List FPath :=
  (fs.filter (fun e => dir.isPrefixOf e.1 && decide (dir.length < e.1.length))).map
    (fun e => e.1)

/-- os.listdir filtered by os.path.isfile: files directly inside `dir`. -/
def listdirFiles (fs : FS) (dir : FPath) : List FPath :=
  (fs.filter (fun e => e.1.dropLast = dir)).map (fun e => e.1)

/-! ## file_index.py — FileIndex -/

/-- FileIndex._get_file_hash: MD5 of the bytes when the file can be read;
the printed mtime when reading fails but the file exists; a propagated
exception (`os.path.getmtime` raising FileNotFoundError inside the
`except:` block) when the file does not exist. -/
def get_file_hash (md5 : String → String) (fs : FS) (p : FPath) : Except Unit String :=
  match dictGet fs p with
  | none => Except.error ()
  | some f => if f.readable then Except.ok (md5 f.content) else Except.ok (toString f.mtime)

/-- os.path.getsize. -/
def get_size (fs : FS) (p : FPath) : Except Unit Nat :=
  match dictGet fs p with
  | none => Except.error ()
  | some f => Except.ok f.content.length

/-- A FileRecord as stored in the `files` map (the wall-clock
`last_indexed` field and the opaque metadata payload carry no information
used by any claim and are left out). -/
structure FileRecord where
  path : FPath
  filename : String
  hash : String
  type_ : String
  size : Nat
deriving DecidableEq, Repr

/-- The extraction payload (`file_info` / job result) whose `type` is
committed to the index. -/
structure ExtractResult where
  filename : String
  content : String
  type_ : String
deriving DecidableEq, Repr

/-- The in-memory index, which `_save_index` persists wholesale (the model
identifies state and snapshot): path → FileRecord and directory → list of
paths. -/
structure FileIndexState where
  files : List (FPath × FileRecord)
  directories : List (FPath × List FPath)
deriving DecidableEq, Repr

def emptyIndex : FileIndexState := ⟨[], []⟩

/-- The directory-registration part of add_file: create the directory
entry when absent, then append the path when not yet listed. -/
def dirsAfterAdd (st : FileIndexState) (p : FPath) : List (FPath × List FPath) :=
  let dir := p.dropLast
  let dirs0 := if (dictGet st.directories dir).isSome then st.directories
    else dictInsert st.directories dir []
  let dfiles := (dictGet dirs0 dir).getD []
  if p ∈ dfiles then dirs0 else dictInsert dirs0 dir (dfiles ++ [p])

/-- FileIndex.add_file: hash the current bytes, register the directory,
and upsert the FileRecord; the exception from hashing or `os.path.getsize`
on a vanished file propagates. -/
def add_file (md5 : String → String) (fs : FS) (st : FileIndexState) (p : FPath)
    (info : ExtractResult) : Except Unit FileIndexState := do
  let hash ← get_file_hash md5 fs p
  let size ← get_size fs p
  return { files := dictInsert st.files p ⟨p, basename p, hash, info.type_, size⟩,
           directories := dirsAfterAdd st p }

/-- FileIndex.remove_file: delete the FileRecord when present and drop the
path from its directory entry when listed. -/
def remove_file (st : FileIndexState) (p : FPath) : FileIndexState :=
  let files := if (dictGet st.files p).isSome then dictRemove st.files p else st.files
  let dirs :=
    match dictGet st.directories p.dropLast with
    | none => st.directories
    | some dfiles =>
      if p ∈ dfiles then
        dictInsert st.directories p.dropLast (listRemoveFirst dfiles p)
      else st.directories
  { files := files, directories := dirs }

/-- FileIndex.clear_index. -/
def clear_index (_st : FileIndexState) : FileIndexState := emptyIndex

/-- FileIndex.file_needs_update: true when no record exists, else compare
the stored hash against the freshly computed one (which raises when the
file has disappeared from disk). -/
def file_needs_update (md5 : String → String) (fs : FS) (st : FileIndexState) (p : FPath) :
    Except Unit Bool :=
  match dictGet st.files p with
  | none => Except.ok true
  | some r => do
    let h ← get_file_hash md5 fs p
    return decide (¬ h = r.hash)

/-- FileIndex.get_files_in_directory (drops paths with no backing record,
which is dead code when the invariant below holds). -/
def get_files_in_directory (st : FileIndexState) (dir : FPath) : List FileRecord :=
  match dictGet st.directories dir with
  | none => []
  | some dfiles => dfiles.filterMap (fun p => dictGet st.files p)

/-- Well-formedness of the index: directory keys are unique, each
directory entry is duplicate-free (it models a set), and every listed path
lies in that directory and has a backing FileRecord. -/
def wfIndex (st : FileIndexState) : Prop :=
  (dictKeys st.directories).Nodup ∧
  ∀ e ∈ st.directories, e.2.Nodup ∧
    ∀ q ∈ e.2, (dictGet st.files q).isSome ∧ q.dropLast = e.1

instance (st : FileIndexState) : Decidable (wfIndex st) := by
  unfold wfIndex
  infer_instance

/-! ## file_handler.py — FileProcessor.get_file_type -/

/-- PurePath.suffix: the substring from the rightmost dot of the name,
unless that dot is the first or the last character. -/
def pathSuffix (name : String) : String :=
  let cs := name.toList
  match (cs.reverse).findIdx? (fun c => c = '.') with
  | none => ""
  | some j =>
    let i := cs.length - 1 - j
    if 0 < i ∧ i < cs.length - 1 then String.mk (cs.drop i) else ""

/-- FileProcessor.get_file_type (str.lower is per-character ASCII
lowering here). -/
def get_file_type (filename : String) : String :=
  let extension := String.mk ((pathSuffix filename).toList.map Char.toLower)
  if extension = ".txt" then "text"
  else if extension = ".json" then "json"
  else if extension = ".csv" then "csv"
  else if extension = ".pdf" then "pdf"
  else if extension = ".docx" then "docx"
  else "unknown"

/-! ## file_batch_processor.py — BatchProcessor

The worker pool is serialised: jobs run one after the other in submission
order and each callback fires right after its job, one interleaving of
the unspecified completion order.  The per-type handlers (read_text,
read_json, read_csv, PDF/DOCX extraction) are pure functions of the file
bytes, supplied as an `ExtractEnv`; `Except.error` models an exception
raised during reading or parsing. -/

inductive JobStatus
  | pending
  | processing
  | completed
  | failed
deriving DecidableEq, Repr

/-- A FileProcessingJob (timestamps are not modelled). -/
structure FileProcessingJob where
  filename : String
  file_type : String
  status : JobStatus
  error : Option String
  result : Option ExtractResult
deriving DecidableEq, Repr

structure ExtractEnv where
  extractText : String → Except String String
  extractJson : String → Except String String
  extractCsv : String → Except String String
  extractPdf : String → Except String String
  extractDocx : String → Except String String
  pdf_available : Bool
  docx_available : Bool

def mkJob (f : String × String) : FileProcessingJob :=
  { filename := f.1, file_type := f.2, status := JobStatus.pending, error := none,
    result := none }

/-- Opening and reading the bytes of a file through the handlers. -/
def readFileFS (fs : FS) (p : FPath) : Except String String :=
  match dictGet fs p with
  | none => Except.error "No such file or directory"
  | some f => if f.readable then Except.ok f.content else Except.error "Permission denied"

/-- BatchProcessor._process_file: start the job, dispatch on the file
type (PDF/DOCX only when the library is available), complete with the
extracted payload or fail with a message; any exception is caught and
fails only this job. -/
def process_file (env : ExtractEnv) (readBytes : Except String String)
    (j : FileProcessingJob) : FileProcessingJob :=
  let j' := { j with status := JobStatus.processing }
  let run := fun (ex : String → Except String String) (ty : String) =>
    match readBytes with
    | Except.error e =>
      { j' with status := JobStatus.failed, error := some ("Error processing file: " ++ e) }
    | Except.ok bytes =>
      match ex bytes with
      | Except.ok content =>
        { j' with status := JobStatus.completed, result := some ⟨j.filename, content, ty⟩ }
      | Except.error e =>
        { j' with status := JobStatus.failed, error := some ("Error processing file: " ++ e) }
  if j.file_type = "text" then run env.extractText "text"
  else if j.file_type = "json" then run env.extractJson "json"
  else if j.file_type = "csv" then run env.extractCsv "csv"
  else if j.file_type = "pdf" && env.pdf_available then run env.extractPdf "pdf"
  else if j.file_type = "docx" && env.docx_available then run env.extractDocx "docx"
  else
    { j' with
      status := JobStatus.failed, error := some ("Unsupported file type: " ++ j.file_type) }

/-- BatchProcessor.process_directory: list the directory, create one
pending job per file (replacing the previous job list), process each job,
collect completed payloads, and invoke the callback once per job as it
finishes; the callback state `σ` is threaded through. -/
def process_directory {σ : Type} (env : ExtractEnv) (fs : FS) (dir : FPath)
    (callback : σ → FileProcessingJob → σ) (s0 : σ) :
    List FileProcessingJob × List ExtractResult × σ :=
  let files := (listdirFiles fs dir).map (fun p => (basename p, get_file_type (basename p)))
  let jobs := files.map mkJob
  jobs.foldl (fun acc j =>
    let processed := process_file env (readFileFS fs (dir ++ [j.filename])) j
    let results :=
      if processed.status = JobStatus.completed ∧ processed.result.isSome then
        acc.2.1 ++ [processed.result.getD ⟨"", "", ""⟩]
      else acc.2.1
    (acc.1 ++ [processed], results, callback acc.2.2 processed))
    ([], [], s0)

structure ProgressInfo where
  total : Nat
  completed : Nat
  failed : Nat
  processing : Nat
  pending : Nat
  progress : ℚ
deriving DecidableEq, Repr

/-- BatchProcessor.get_progress over the current job list. -/
def get_progress (jobs : List FileProcessingJob) : ProgressInfo :=
  let total := jobs.length
  let completed := jobs.countP (fun j => j.status = JobStatus.completed)
  let failed := jobs.countP (fun j => j.status = JobStatus.failed)
  let processing := jobs.countP (fun j => j.status = JobStatus.processing)
  let pending := jobs.countP (fun j => j.status = JobStatus.pending)
  { total := total, completed := completed, failed := failed, processing := processing,
    pending := pending,
    progress := if total > 0 then ((completed : ℚ) + (failed : ℚ)) / (total : ℚ) else 1 }

/-! ## file_index.py — FileIndexBuilder.index_directory -/

structure IndexResult where
  directory : FPath
  total_files : Nat
  indexed : Nat
  errors : Nat
  skipped : Nat
deriving DecidableEq, Repr

structure BuilderState where
  index : FileIndexState
  jobs : List FileProcessingJob
deriving DecidableEq, Repr

/-- Effectful filter, evaluating the predicate left to right and
propagating the first exception. -/
def filterE {ε α : Type} (f : α → Except ε Bool) : List α → Except ε (List α)
  | [] => Except.ok []
  | x :: xs => do
    let b ← f x
    let rest ← filterE f xs
    return if b then x :: rest else rest

def temp_dir : FPath := ["data", "temp_index"]

/-- The symlink staging of index_directory: a fresh temp directory holding
one link per file to index, named by its basename and resolving to the
original file.  Basename collisions inside one staging pass are not
modelled; every theorem about `index_directory` below assumes the staged
basenames are distinct. -/
def stageFS (fs : FS) (files_to_index : List FPath) : FS :=
  files_to_index.filterMap
    (fun p => (dictGet fs p).map (fun f => (temp_dir ++ [basename p], f)))

/-- The update_index callback inside index_directory: on a completed job
with a payload, commit the first original path whose basename matches the
job via add_file.  (The exceptional add_file branch cannot fire for staged
files, which exist on disk; the model keeps the index unchanged there.) -/
def update_index_callback (md5 : String → String) (fs : FS) (files_to_index : List FPath)
    (st : FileIndexState) (j : FileProcessingJob) : FileIndexState :=
  if j.status = JobStatus.completed ∧ j.result.isSome then
    match j.result with
    | some r =>
      match files_to_index.find? (fun p => basename p = j.filename) with
      | some orig => ((add_file md5 fs st orig r).toOption).getD st
      | none => st
    | none => st
  else st

/-- FileIndexBuilder.index_directory: walk the directory, keep the files
needing update (all of them under force_update), stage them, process the
staged directory with the committing callback, and report counts; the
returned state carries the updated index and the processor 's job list. -/
def index_directory (md5 : String → String) (env : ExtractEnv) (fs : FS)
    (st : BuilderState) (dir : FPath) (force_update : Bool) :
    Except Unit (BuilderState × IndexResult) := do
  let file_paths := walkFiles fs dir
  let files_to_index ← filterE
    (fun p => if force_update then pure true else file_needs_update md5 fs st.index p)
    file_paths
  let skipped := file_paths.length - files_to_index.length
  if files_to_index.isEmpty then
    return (st, ⟨dir, file_paths.length, 0, 0, skipped⟩)
  else
    let tempFS := stageFS fs files_to_index
    let processed := process_directory env tempFS temp_dir
      (update_index_callback md5 fs files_to_index) st.index
    let indexed := processed.1.countP (fun j => j.status = JobStatus.completed)
    let errors := processed.1.countP (fun j => j.status = JobStatus.failed)
    return (⟨processed.2.2, processed.1⟩,
      ⟨dir, file_paths.length, indexed, errors, skipped⟩)

/-! Dictionary removal lemmas and a characterisation of `add_file`. -/

theorem dictGet_remove_self {α β : Type} [DecidableEq α] (d : List (α × β)) (k : α) :
    dictGet (dictRemove d k) k = none := by
  rw [dictGet_none_iff]
  intro p hp
  have := List.of_mem_filter hp
  simpa using this

theorem dictGet_remove_ne {α β : Type} [DecidableEq α] (d : List (α × β)) (k k' : α)
    (h : k ≠ k') : dictGet (dictRemove d k) k' = dictGet d k' := by
  induction d with
  | nil => rfl
  | cons q d ih =>
    by_cases hq : q.1 = k
    · rw [show dictRemove (q :: d) k = dictRemove d k from by
        simp [dictRemove, List.filter_cons, hq]]
      rw [ih, dictGet_cons, if_neg (show ¬ q.1 = k' from by rw [hq]; exact h)]
    · rw [show dictRemove (q :: d) k = q :: dictRemove d k from by
        simp [dictRemove, List.filter_cons, hq]]
      rw [dictGet_cons, dictGet_cons]
      by_cases hk' : q.1 = k'
      · simp [hk']
      · rw [if_neg hk', if_neg hk']
        exact ih

theorem listRemoveFirst_sublist {α : Type} [DecidableEq α] :
    ∀ (l : List α) (x : α), List.Sublist (listRemoveFirst l x) l := by
  intro l x
  induction l with
  | nil => exact List.Sublist.refl _
  | cons y ys ih =>
    rw [listRemoveFirst]
    by_cases hy : y = x
    · rw [if_pos hy]
      exact List.sublist_cons_self _ _
    · rw [if_neg hy]
      exact List.Sublist.cons₂ _ ih

theorem not_mem_listRemoveFirst_self {α : Type} [DecidableEq α] {l : List α} {x : α}
    (hnd : l.Nodup) (hx : x ∈ l) : x ∉ listRemoveFirst l x := by
  induction l with
  | nil => simp at hx
  | cons y ys ih =>
    rw [listRemoveFirst]
    rcases List.nodup_cons.1 hnd with ⟨hy, hys⟩
    by_cases hyx : y = x
    · rw [if_pos hyx]
      rw [← hyx]
      exact hy
    · rw [if_neg hyx]
      intro hc
      rcases List.mem_cons.1 hc with hc | hc
      · exact hyx hc.symm
      · rcases List.mem_cons.1 hx with hx' | hx'
        · exact hyx hx'.symm
        · exact ih hys hx' hc

theorem mem_dictInsert_nodup {α β : Type} [DecidableEq α] {e : α × β} {k : α} {v : β} :
    ∀ {d : List (α × β)}, (dictKeys d).Nodup → e ∈ dictInsert d k v →
      e = (k, v) ∨ (e ∈ d ∧ e.1 ≠ k) := by
  intro d
  induction d with
  | nil =>
    intro _ h
    simp only [dictInsert, List.mem_singleton] at h
    exact Or.inl h
  | cons q d ih =>
    intro hnd h
    simp only [dictKeys, List.map_cons, List.nodup_cons] at hnd
    rw [dictInsert] at h
    by_cases hq : q.1 = k
    · rw [if_pos hq] at h
      rcases List.mem_cons.1 h with h | h
      · exact Or.inl h
      · refine Or.inr ⟨List.mem_cons_of_mem _ h, ?_⟩
        intro he
        apply hnd.1
        rw [hq, ← he]
        exact List.mem_map.2 ⟨e, h, rfl⟩
    · rw [if_neg hq] at h
      rcases List.mem_cons.1 h with h | h
      · exact Or.inr ⟨h ▸ List.mem_cons_self _ _, by rw [h]; exact hq⟩
      · rcases ih hnd.2 h with h' | h'
        · exact Or.inl h'
        · exact Or.inr ⟨List.mem_cons_of_mem _ h'.1, h'.2⟩

theorem dictGet_insert_isSome {α β : Type} [DecidableEq α] (d : List (α × β)) (k k' : α)
    (v : β) (h : (dictGet d k').isSome) : (dictGet (dictInsert d k v) k').isSome := by
  by_cases hk : k = k'
  · rw [hk, dictGet_insert_self]; rfl
  · rw [dictGet_insert_ne _ _ _ _ hk]; exact h

theorem add_file_ok {md5 : String → String} {fs : FS} {st : FileIndexState} {p : FPath}
    {info : ExtractResult} {st' : FileIndexState}
    (h : add_file md5 fs st p info = Except.ok st') :
    ∃ hs sz, get_file_hash md5 fs p = Except.ok hs ∧ get_size fs p = Except.ok sz ∧
      st' = { files := dictInsert st.files p ⟨p, basename p, hs, info.type_, sz⟩,
              directories := dirsAfterAdd st p } := by
  unfold add_file at h
  rcases hh : get_file_hash md5 fs p with _ | hs
  · rw [hh] at h
    exact absurd h (by simp [Bind.bind, Except.bind])
  · rw [hh] at h
    rcases hz : get_size fs p with _ | sz
    · rw [hz] at h
      exact absurd h (by simp [Bind.bind, Except.bind])
    · rw [hz] at h
      refine ⟨hs, sz, rfl, rfl, ?_⟩
      simp only [Bind.bind, Except.bind, pure, Except.pure] at h
      exact (Option.some.inj (congrArg Except.toOption h)).symm

/-! Preservation of the index invariant by the mutating operations. -/

theorem dirsAfterAdd_eq (st : FileIndexState) (p : FPath) :
    dirsAfterAdd st p =
      match dictGet st.directories p.dropLast with
      | none => dictInsert st.directories p.dropLast [p]
      | some d0 =>
        if p ∈ d0 then st.directories
        else dictInsert st.directories p.dropLast (d0 ++ [p]) := by
  unfold dirsAfterAdd
  rcases hdir : dictGet st.directories p.dropLast with _ | d0
  · simp only [hdir, Option.isSome_none, Bool.false_eq_true, if_false]
    rw [dictGet_insert_self]
    simp only [Option.getD_some, if_neg (List.not_mem_nil p)]
    rw [dictInsert_dictInsert_same, List.nil_append]
  · simp only [hdir, Option.isSome_some, if_true, Option.getD_some]

theorem wfIndex_add_file {md5 : String → String} {fs : FS} {st : FileIndexState} {p : FPath}
    {info : ExtractResult} {st' : FileIndexState} (hwf : wfIndex st)
    (h : add_file md5 fs st p info = Except.ok st') : wfIndex st' := by
  rcases add_file_ok h with ⟨hs, sz, _, _, rfl⟩
  rcases hwf with ⟨hkeys, hent⟩
  have hfile : ∀ q : FPath, (dictGet st.files q).isSome →
      (dictGet (dictInsert st.files p ⟨p, basename p, hs, info.type_, sz⟩) q).isSome :=
    fun q hq => dictGet_insert_isSome _ _ _ _ hq
  have hfileP : (dictGet (dictInsert st.files p ⟨p, basename p, hs, info.type_, sz⟩)
      p).isSome := by rw [dictGet_insert_self]; rfl
  constructor
  · show (dictKeys (dirsAfterAdd st p)).Nodup
    rw [dirsAfterAdd_eq]
    rcases hdir : dictGet st.directories p.dropLast with _ | d0
    · exact dictKeys_nodup_insert _ _ _ hkeys
    · by_cases hp : p ∈ d0
      · simp only [hp, if_true]
        exact hkeys
      · simp only [hp, if_false]
        exact dictKeys_nodup_insert _ _ _ hkeys
  · intro e he
    have he2 : e ∈ dirsAfterAdd st p := he
    rw [dirsAfterAdd_eq] at he2
    rcases hdir : dictGet st.directories p.dropLast with _ | d0
    · simp only [hdir] at he2
      rcases mem_dictInsert_nodup hkeys he2 with rfl | ⟨he3, _⟩
      · refine ⟨List.nodup_singleton p, ?_⟩
        intro q hq
        rw [List.mem_singleton] at hq
        subst hq
        exact ⟨hfileP, rfl⟩
      · rcases hent e he3 with ⟨h1, h2⟩
        exact ⟨h1, fun q hq => ⟨hfile q (h2 q hq).1, (h2 q hq).2⟩⟩
    · simp only [hdir] at he2
      have hd0mem : (p.dropLast, d0) ∈ st.directories := dictGet_some_mem hdir
      rcases hent _ hd0mem with ⟨hd0nd, hd0q⟩
      by_cases hp : p ∈ d0
      · simp only [hp, if_true] at he2
        rcases hent e he2 with ⟨h1, h2⟩
        exact ⟨h1, fun q hq => ⟨hfile q (h2 q hq).1, (h2 q hq).2⟩⟩
      · simp only [hp, if_false] at he2
        rcases mem_dictInsert_nodup hkeys he2 with rfl | ⟨he3, _⟩
        · constructor
          · show (d0 ++ [p]).Nodup
            rw [List.nodup_append]
            refine ⟨hd0nd, List.nodup_singleton p, ?_⟩
            intro a ha hb
            rw [List.mem_singleton] at hb
            subst hb
            exact hp ha
          · intro q hq
            rcases List.mem_append.1 hq with hq | hq
            · exact ⟨hfile q (hd0q q hq).1, (hd0q q hq).2⟩
            · rw [List.mem_singleton] at hq
              subst hq
              exact ⟨hfileP, rfl⟩
        · rcases hent e he3 with ⟨h1, h2⟩
          exact ⟨h1, fun q hq => ⟨hfile q (h2 q hq).1, (h2 q hq).2⟩⟩

theorem wfIndex_remove_file {st : FileIndexState} {p : FPath} (hwf : wfIndex st) :
    wfIndex (remove_file st p) := by
  rcases hwf with ⟨hkeys, hent⟩
  have hfiles : ∀ q : FPath, q ≠ p → (dictGet st.files q).isSome →
      (dictGet (remove_file st p).files q).isSome := by
    intro q hq hsome
    show (dictGet (if (dictGet st.files p).isSome then dictRemove st.files p else st.files)
      q).isSome
    by_cases hp : (dictGet st.files p).isSome
    · rw [if_pos hp, dictGet_remove_ne _ _ _ (fun he => hq he.symm)]
      exact hsome
    · rw [if_neg hp]
      exact hsome
  have hdirs : (remove_file st p).directories =
      (match dictGet st.directories p.dropLast with
       | none => st.directories
       | some dfiles =>
         if p ∈ dfiles then
           dictInsert st.directories p.dropLast (listRemoveFirst dfiles p)
         else st.directories) := rfl
  constructor
  · rw [hdirs]
    rcases hdir : dictGet st.directories p.dropLast with _ | dfiles
    · exact hkeys
    · by_cases hp : p ∈ dfiles
      · simp only [hp, if_true]
        exact dictKeys_nodup_insert _ _ _ hkeys
      · simp only [hp, if_false]
        exact hkeys
  · intro e he
    rw [hdirs] at he
    rcases hdir : dictGet st.directories p.dropLast with _ | dfiles
    · rw [hdir] at he
      rcases hent e he with ⟨h1, h2⟩
      refine ⟨h1, fun q hq => ⟨?_, (h2 q hq).2⟩⟩
      refine hfiles q ?_ (h2 q hq).1
      intro hqp
      subst hqp
      have he' : e ∈ st.directories := he
      have hsome : (dictGet st.directories e.1).isSome :=
        dictGet_isSome_of_any _ _ (List.any_eq_true.2 ⟨e, he', by simp⟩)
      rw [(h2 q hq).2] at hdir
      rw [hdir] at hsome
      simp at hsome
    · rw [hdir] at he
      have hdmem : (p.dropLast, dfiles) ∈ st.directories := dictGet_some_mem hdir
      rcases hent _ hdmem with ⟨hdnd, hdq⟩
      by_cases hp : p ∈ dfiles
      · simp only [hp, if_true] at he
        rcases mem_dictInsert_nodup hkeys he with rfl | ⟨he', hne⟩
        · refine ⟨hdnd.sublist (listRemoveFirst_sublist dfiles p), ?_⟩
          intro q hq
          have hqd : q ∈ dfiles := (listRemoveFirst_sublist dfiles p).subset hq
          have hqp : q ≠ p := by
            intro hqp
            subst hqp
            exact not_mem_listRemoveFirst_self hdnd hp hq
          exact ⟨hfiles q hqp (hdq q hqd).1, (hdq q hqd).2⟩
        · rcases hent e he' with ⟨h1, h2⟩
          refine ⟨h1, fun q hq => ⟨?_, (h2 q hq).2⟩⟩
          refine hfiles q ?_ (h2 q hq).1
          intro hqp
          subst hqp
          apply hne
          rw [← (h2 q hq).2]
      · simp only [hp, if_false] at he
        rcases hent e he with ⟨h1, h2⟩
        refine ⟨h1, fun q hq => ⟨?_, (h2 q hq).2⟩⟩
        refine hfiles q ?_ (h2 q hq).1
        intro hqp
        subst hqp
        have he' : e ∈ st.directories := he
        have hhh : dictGet st.directories e.1 = some e.2 := dictGet_of_mem_nodup hkeys (by
          rw [show (e.1, e.2) = e from rfl]; exact he')
        rw [(h2 q hq).2] at hdir
        rw [hhh] at hdir
        exact hp ((Option.some.inj hdir) ▸ hq)

theorem wfIndex_clear (st : FileIndexState) : wfIndex (clear_index st) := by
  refine ⟨by simp [clear_index, emptyIndex, dictKeys], ?_⟩
  intro e he
  simp [clear_index, emptyIndex] at he

theorem remove_file_get_none (st : FileIndexState) (p : FPath) :
    dictGet (remove_file st p).files p = none := by
  show dictGet (if (dictGet st.files p).isSome then dictRemove st.files p else st.files) p
    = none
  rcases hp : dictGet st.files p with _ | r
  · simp only [Option.isSome_none, Bool.false_eq_true, if_false]
    exact hp
  · simp only [Option.isSome_some, if_true]
    exact dictGet_remove_self _ _

theorem remove_file_not_in_dir {st : FileIndexState} (hwf : wfIndex st) (p : FPath) :
    ∀ dfiles, dictGet (remove_file st p).directories p.dropLast = some dfiles →
      p ∉ dfiles := by
  intro dfiles hget
  rcases hwf with ⟨hkeys, hent⟩
  have hdirs : (remove_file st p).directories =
      (match dictGet st.directories p.dropLast with
       | none => st.directories
       | some d0 =>
         if p ∈ d0 then
           dictInsert st.directories p.dropLast (listRemoveFirst d0 p)
         else st.directories) := rfl
  rw [hdirs] at hget
  rcases hdir : dictGet st.directories p.dropLast with _ | d0
  · simp [hdir] at hget
  · simp only [hdir] at hget
    have hd0nd : d0.Nodup := (hent _ (dictGet_some_mem hdir)).1
    by_cases hp : p ∈ d0
    · simp only [hp, if_true] at hget
      rw [dictGet_insert_self] at hget
      rw [← Option.some.inj hget]
      exact not_mem_listRemoveFirst_self hd0nd hp
    · simp only [hp, if_false] at hget
      rw [hdir] at hget
      rw [← Option.some.inj hget]
      exact hp

/-- C10: for a path that has a FileRecord but no longer exists on disk,
file_needs_update raises (the FileNotFoundError from the mtime fallback
inside the hash computation propagates) instead of returning a boolean. -/
theorem file_needs_update_missing_raises (md5 : String → String) (fs : FS)
    (st : FileIndexState) (p : FPath)
    (hrec : (dictGet st.files p).isSome) (hfs : dictGet fs p = none) :
    file_needs_update md5 fs st p = Except.error () := by
  unfold file_needs_update
  rcases hr : dictGet st.files p with _ | r
  · rw [hr] at hrec
    simp at hrec
  · simp only [get_file_hash, hfs, Bind.bind, Except.bind]

def stW : FileIndexState :=
  ⟨[(["root", "a.txt"], ⟨["root", "a.txt"], "a.txt", "h", "text", 1⟩)],
   [(["root"], [["root", "a.txt"]])]⟩

theorem file_needs_update_missing_raises_witness :
    ((dictGet stW.files ["root", "a.txt"]).isSome ∧
      dictGet ([] : FS) ["root", "a.txt"] = none) ∧
    file_needs_update (fun s => s) [] stW ["root", "a.txt"] = Except.error () :=
  ⟨by decide, file_needs_update_missing_raises _ _ _ _ (by decide) (by decide)⟩

/-- C2: file_needs_update is true exactly when no record exists or the
current hash differs from the stored one; right after a successful
add_file it is false on the unchanged filesystem; and for a readable file
it flips to true exactly when the bytes change (given a collision-free
hash). -/
theorem file_needs_update_spec (md5 : String → String) (fs : FS) (st : FileIndexState)
    (p : FPath) :
    ((dictGet st.files p = none → file_needs_update md5 fs st p = Except.ok true) ∧
     (∀ r hsh, dictGet st.files p = some r → get_file_hash md5 fs p = Except.ok hsh →
        file_needs_update md5 fs st p = Except.ok (decide (¬ hsh = r.hash)))) ∧
    (∀ info st', add_file md5 fs st p info = Except.ok st' →
        file_needs_update md5 fs st' p = Except.ok false) ∧
    (∀ info st' (fs' : FS) (f f' : FSFile), add_file md5 fs st p info = Except.ok st' →
        dictGet fs p = some f → dictGet fs' p = some f' →
        f.readable = true → f'.readable = true →
        ((f'.content = f.content → file_needs_update md5 fs' st' p = Except.ok false) ∧
         (Function.Injective md5 → f'.content ≠ f.content →
            file_needs_update md5 fs' st' p = Except.ok true))) := by
  have hbase : ∀ (st0 : FileIndexState) (r : FileRecord) hsh,
      dictGet st0.files p = some r → get_file_hash md5 fs p = Except.ok hsh →
      file_needs_update md5 fs st0 p = Except.ok (decide (¬ hsh = r.hash)) := by
    intro st0 r hsh hr hh
    unfold file_needs_update
    rw [hr]
    simp [hh, Bind.bind, Except.bind, pure, Except.pure]
  refine ⟨⟨?_, ?_⟩, ?_, ?_⟩
  · intro h
    unfold file_needs_update
    rw [h]
  · intro r hsh hr hh
    exact hbase st r hsh hr hh
  · intro info st' hadd
    rcases add_file_ok hadd with ⟨hs, sz, hh, _, rfl⟩
    unfold file_needs_update
    rw [dictGet_insert_self]
    simp [hh, Bind.bind, Except.bind, pure, Except.pure]
  · intro info st' fs' f f' hadd hf hf' hread hread'
    rcases add_file_ok hadd with ⟨hs, sz, hh, _, rfl⟩
    have hhs : hs = md5 f.content := by
      unfold get_file_hash at hh
      simp only [hf, hread, if_true] at hh
      simp only [Except.ok.injEq] at hh
      exact hh.symm
    have hh' : get_file_hash md5 fs' p = Except.ok (md5 f'.content) := by
      unfold get_file_hash
      simp only [hf', hread', if_true]
    have hupd : file_needs_update md5 fs'
        { files := dictInsert st.files p ⟨p, basename p, hs, info.type_, sz⟩,
          directories := dirsAfterAdd st p } p =
        Except.ok (decide (¬ md5 f'.content = hs)) := by
      unfold file_needs_update
      rw [dictGet_insert_self]
      simp [hh', Bind.bind, Except.bind, pure, Except.pure]
    constructor
    · intro hsame
      rw [hupd, hhs, hsame]
      simp
    · intro hinj hne
      rw [hupd, hhs]
      have hmd : ¬ md5 f'.content = md5 f.content := fun hc => hne (hinj hc)
      simp [hmd]

def fsW2 : FS := [(["root", "a.txt"], ⟨"hello", 5, true⟩)]

theorem file_needs_update_spec_witness :
    (dictGet (emptyIndex).files ["root", "a.txt"] = none ∧
      file_needs_update (fun s => s) fsW2 emptyIndex ["root", "a.txt"] = Except.ok true) :=
  ⟨by decide,
   (file_needs_update_spec (fun s => s) fsW2 emptyIndex ["root", "a.txt"]).1.1 (by decide)⟩

/-- C8: the invariant that every path listed in any DirectoryEntry has a
backing FileRecord (together with uniqueness of directory keys, set-ness
of each entry, and each path lying in its own directory) is preserved by
add_file, remove_file and clear_index; and remove_file both deletes the
FileRecord and drops the path from its DirectoryEntry. -/
theorem file_index_invariant (md5 : String → String) (fs : FS) (st : FileIndexState)
    (p : FPath) (info : ExtractResult) :
    (wfIndex st → ∀ st', add_file md5 fs st p info = Except.ok st' → wfIndex st') ∧
    (wfIndex st → wfIndex (remove_file st p)) ∧
    wfIndex (clear_index st) ∧
    dictGet (remove_file st p).files p = none ∧
    (wfIndex st → ∀ dfiles,
      dictGet (remove_file st p).directories p.dropLast = some dfiles → p ∉ dfiles) := by
  refine ⟨?_, ?_, wfIndex_clear st, remove_file_get_none st p, ?_⟩
  · intro hwf st' h
    exact wfIndex_add_file hwf h
  · intro hwf
    exact wfIndex_remove_file hwf
  · intro hwf
    exact remove_file_not_in_dir hwf p

theorem file_index_invariant_witness :
    wfIndex stW ∧ dictGet (remove_file stW ["root", "a.txt"]).files ["root", "a.txt"] = none :=
  ⟨by decide,
   (file_index_invariant (fun s => s) [] stW ["root", "a.txt"] ⟨"a.txt", "x", "text"⟩).2.2.2.1⟩

/-! Stability of records under a rescan that no longer sees the file. -/

theorem foldl_inv {α β : Type} (f : β → α → β) (P : β → Prop)
    (hP : ∀ b a, P b → P (f b a)) : ∀ (l : List α) (b : β), P b → P (l.foldl f b) := by
  intro l
  induction l with
  | nil => intro b h; exact h
  | cons a l ih =>
    intro b h
    rw [List.foldl_cons]
    exact ih _ (hP b a h)

theorem update_index_callback_preserves (md5 : String → String) (fs : FS)
    (ftI : List FPath) (p : FPath) (hp : p ∉ ftI) (idx : FileIndexState)
    (j : FileProcessingJob) :
    dictGet (update_index_callback md5 fs ftI idx j).files p = dictGet idx.files p := by
  unfold update_index_callback
  by_cases hc : j.status = JobStatus.completed ∧ j.result.isSome
  · rw [if_pos hc]
    rcases hres : j.result with _ | r
    · rfl
    · rcases hfind : ftI.find? (fun q => basename q = j.filename) with _ | orig
      · rfl
      · have horig : orig ∈ ftI := List.mem_of_find?_eq_some hfind
        have hne : orig ≠ p := fun he => hp (he ▸ horig)
        rcases hadd : add_file md5 fs idx orig r with _ | st'
        · simp [hadd, Except.toOption]
        · simp only [hadd, Except.toOption, Option.getD_some]
          rcases add_file_ok hadd with ⟨hs, sz, _, _, rfl⟩
          exact dictGet_insert_ne _ _ _ _ hne
  · rw [if_neg hc]

theorem filterE_subset {ε α : Type} (f : α → Except ε Bool) :
    ∀ (xs l : List α), filterE f xs = Except.ok l → ∀ x ∈ l, x ∈ xs := by
  intro xs
  induction xs with
  | nil =>
    intro l h x hx
    simp only [filterE] at h
    rw [← Except.ok.inj h] at hx
    simp at hx
  | cons a xs ih =>
    intro l h x hx
    simp only [filterE] at h
    rcases hfa : f a with _ | b
    · rw [hfa] at h
      simp [Bind.bind, Except.bind] at h
    · rw [hfa] at h
      rcases hrest : filterE f xs with _ | rest
      · rw [hrest] at h
        simp [Bind.bind, Except.bind] at h
      · rw [hrest] at h
        simp only [Bind.bind, Except.bind, pure, Except.pure, Except.ok.injEq] at h
        rw [← h] at hx
        by_cases hb : b = true
        · rw [if_pos hb] at hx
          rcases List.mem_cons.1 hx with rfl | hx'
          · exact List.mem_cons_self _ _
          · exact List.mem_cons_of_mem _ (ih rest hrest x hx')
        · rw [if_neg hb] at hx
          exact List.mem_cons_of_mem _ (ih rest hrest x hx)

theorem walkFiles_isSome {fs : FS} {dir p : FPath} (h : p ∈ walkFiles fs dir) :
    (dictGet fs p).isSome := by
  unfold walkFiles at h
  rcases List.mem_map.1 h with ⟨e, he, rfl⟩
  exact dictGet_isSome_of_any _ _
    (List.any_eq_true.2 ⟨e, List.mem_of_mem_filter he, by simp⟩)

theorem index_directory_files_stable (md5 : String → String) (env : ExtractEnv) (fs : FS)
    (st : BuilderState) (dir p : FPath) (hgone : dictGet fs p = none)
    (st' : BuilderState) (res : IndexResult)
    (hrun : index_directory md5 env fs st dir false = Except.ok (st', res)) :
    dictGet st'.index.files p = dictGet st.index.files p := by
  unfold index_directory at hrun
  simp only [Bind.bind, Except.bind] at hrun
  rw [show (fun q : FPath => if false = true then (pure true : Except Unit Bool)
      else file_needs_update md5 fs st.index q) = file_needs_update md5 fs st.index from
    funext (fun q => by simp)] at hrun
  rcases hfE : filterE (file_needs_update md5 fs st.index) (walkFiles fs dir) with _ | ftI
  · simp [hfE] at hrun
  · simp only [hfE] at hrun
    have hpf : p ∉ ftI := by
      intro hc
      have hsome := walkFiles_isSome (filterE_subset _ _ _ hfE p hc)
      rw [hgone] at hsome
      simp at hsome
    by_cases hemp : ftI.isEmpty = true
    · rw [if_pos hemp] at hrun
      simp only [pure, Except.pure, Except.ok.injEq, Prod.mk.injEq] at hrun
      rw [← hrun.1]
    · rw [if_neg hemp] at hrun
      simp only [pure, Except.pure, Except.ok.injEq, Prod.mk.injEq] at hrun
      have hst' : st'.index = (process_directory env (stageFS fs ftI) temp_dir
          (update_index_callback md5 fs ftI) st.index).2.2 := by
        rw [← hrun.1]
      rw [hst']
      unfold process_directory
      exact foldl_inv _ (fun acc : List FileProcessingJob × List ExtractResult × FileIndexState =>
          dictGet acc.2.2.files p = dictGet st.index.files p)
        (fun b a hb => by
          simp only [update_index_callback_preserves md5 fs ftI p hpf]
          exact hb) _ _ rfl

/-! ## C5 — stale records after a rescan -/

instance {ε α : Type} [DecidableEq ε] [DecidableEq α] : DecidableEq (Except ε α) := fun x y =>
  match x, y with
  | Except.error a, Except.error b =>
    if h : a = b then Decidable.isTrue (by rw [h]) else Decidable.isFalse (by simp [h])
  | Except.ok a, Except.ok b =>
    if h : a = b then Decidable.isTrue (by rw [h]) else Decidable.isFalse (by simp [h])
  | Except.error _, Except.ok _ => Decidable.isFalse (by simp)
  | Except.ok _, Except.error _ => Decidable.isFalse (by simp)

def dirC5 : FPath := ["root", "docs"]

def pC5 : FPath := ["root", "docs", "a.txt"]

def bC5 : FPath := ["root", "docs", "b.txt"]

def recC5 : FileRecord := ⟨pC5, "a.txt", "hello", "text", 5⟩

/-- An index holding a record for `a.txt`, which has since vanished from
disk; `b.txt` is still there and has not been indexed yet. -/
def stC5 : BuilderState := ⟨⟨[(pC5, recC5)], [(dirC5, [pC5])]⟩, []⟩

def fsC5 : FS := [(bC5, ⟨"world", 7, true⟩)]

def envC5 : ExtractEnv :=
  ⟨Except.ok, Except.ok, Except.ok, Except.ok, Except.ok, false, false⟩

/-- The state index_directory reaches on that scenario: `b.txt` committed,
the stale record for `a.txt` untouched. -/
def stC5' : BuilderState :=
  ⟨⟨[(pC5, recC5), (bC5, ⟨bC5, "b.txt", "world", "text", 5⟩)], [(dirC5, [pC5, bC5])]⟩,
   [⟨"b.txt", "text", JobStatus.completed, none, some ⟨"b.txt", "world", "text"⟩⟩]⟩

def resC5 : IndexResult := ⟨dirC5, 1, 1, 0, 0⟩

/-- C5 (counterexample): `a.txt` has a FileRecord and is gone from disk;
rescanning its directory with force_update = false succeeds (processing
the remaining `b.txt`), yet the stale FileRecord is still in the file map
and the path is still listed in its DirectoryEntry: the rescan does not
invoke remove_file semantics on anything. -/
theorem rescan_stale_counterexample :
    dictGet fsC5 pC5 = none ∧
    dictGet stC5.index.files pC5 = some recC5 ∧
    index_directory (fun s => s) envC5 fsC5 stC5 dirC5 false = Except.ok (stC5', resC5) ∧
    dictGet stC5'.index.files pC5 = some recC5 ∧
    dictGet stC5'.index.directories dirC5 = some [pC5, bC5] := by
  refine ⟨rfl, rfl, by decide, rfl, rfl⟩

/-- C5 (amended): remove_file, when invoked, does drop a path from both
the file map and its DirectoryEntry; but index_directory never invokes
it: a rescan with force_update = false of a directory from whose disk the
recorded file `p` has vanished leaves the FileRecord of `p` exactly as it
was (the walk only lists files that exist, so `p` is never re-examined). -/
theorem rescan_keeps_stale_record (md5 : String → String) (env : ExtractEnv) (fs : FS)
    (st : BuilderState) (dir p : FPath) (hgone : dictGet fs p = none)
    (hwf : wfIndex st.index) (st' : BuilderState) (res : IndexResult)
    (hrun : index_directory md5 env fs st dir false = Except.ok (st', res)) :
    dictGet st'.index.files p = dictGet st.index.files p ∧
    dictGet (remove_file st.index p).files p = none ∧
    (∀ dfiles, dictGet (remove_file st.index p).directories p.dropLast = some dfiles →
      p ∉ dfiles) :=
  ⟨index_directory_files_stable md5 env fs st dir p hgone st' res hrun,
   remove_file_get_none st.index p,
   remove_file_not_in_dir hwf p⟩

theorem rescan_keeps_stale_record_witness :
    dictGet stC5'.index.files pC5 = dictGet stC5.index.files pC5 ∧
    dictGet (remove_file stC5.index pC5).files pC5 = none ∧
    (∀ dfiles, dictGet (remove_file stC5.index pC5).directories pC5.dropLast = some dfiles →
      pC5 ∉ dfiles) :=
  rescan_keeps_stale_record (fun s => s) envC5 fsC5 stC5 dirC5 pC5 rfl (by decide)
    stC5' resC5 (by decide)

/-! ## C3 — batch processor terminal counts, callbacks, and progress -/

/-- The job that process_directory produces for the file at `p`. -/
def runJob (env : ExtractEnv) (tfs : FS) (dirP : FPath) (p : FPath) : FileProcessingJob :=
  process_file env (readFileFS tfs (dirP ++ [basename p]))
    (mkJob (basename p, get_file_type (basename p)))

/-- process_directory with the logging callback: one log entry per job. -/
def batchRun (env : ExtractEnv) (tfs : FS) (dirP : FPath) :
    List FileProcessingJob × List ExtractResult × List FileProcessingJob :=
  process_directory env tfs dirP (fun l j => l ++ [j]) []

theorem process_file_terminal (env : ExtractEnv) (rb : Except String String)
    (j : FileProcessingJob) :
    (process_file env rb j).status = JobStatus.completed ∨
      (process_file env rb j).status = JobStatus.failed := by
  unfold process_file
  dsimp only
  repeat' split
  all_goals simp

theorem pd_aux_jobs {σ : Type} (env : ExtractEnv) (tfs : FS) (dirP : FPath)
    (cb : σ → FileProcessingJob → σ) :
    ∀ (ps : List FPath) (l0 : List FileProcessingJob) (r0 : List ExtractResult) (a0 : σ),
      ((ps.map (fun p => mkJob (basename p, get_file_type (basename p)))).foldl
          (fun acc j =>
            let processed := process_file env (readFileFS tfs (dirP ++ [j.filename])) j
            let results :=
              if processed.status = JobStatus.completed ∧ processed.result.isSome then
                acc.2.1 ++ [processed.result.getD ⟨"", "", ""⟩]
              else acc.2.1
            (acc.1 ++ [processed], results, cb acc.2.2 processed))
          (l0, r0, a0)).1
        = l0 ++ ps.map (runJob env tfs dirP) := by
  intro ps
  induction ps with
  | nil => intro l0 r0 a0; simp
  | cons p ps ih =>
    intro l0 r0 a0
    rw [List.map_cons, List.foldl_cons, List.map_cons]
    refine Eq.trans (ih _ _ _) ?_
    simp [runJob, mkJob]

theorem pd_aux_state {σ : Type} (env : ExtractEnv) (tfs : FS) (dirP : FPath)
    (cb : σ → FileProcessingJob → σ) :
    ∀ (ps : List FPath) (l0 : List FileProcessingJob) (r0 : List ExtractResult) (a0 : σ),
      ((ps.map (fun p => mkJob (basename p, get_file_type (basename p)))).foldl
          (fun acc j =>
            let processed := process_file env (readFileFS tfs (dirP ++ [j.filename])) j
            let results :=
              if processed.status = JobStatus.completed ∧ processed.result.isSome then
                acc.2.1 ++ [processed.result.getD ⟨"", "", ""⟩]
              else acc.2.1
            (acc.1 ++ [processed], results, cb acc.2.2 processed))
          (l0, r0, a0)).2.2
        = (ps.map (runJob env tfs dirP)).foldl cb a0 := by
  intro ps
  induction ps with
  | nil => intro l0 r0 a0; rfl
  | cons p ps ih =>
    intro l0 r0 a0
    rw [List.map_cons, List.foldl_cons, List.map_cons, List.foldl_cons]
    exact ih _ _ _

theorem process_directory_jobs {σ : Type} (env : ExtractEnv) (tfs : FS) (dirP : FPath)
    (cb : σ → FileProcessingJob → σ) (s0 : σ) :
    (process_directory env tfs dirP cb s0).1
      = (listdirFiles tfs dirP).map (runJob env tfs dirP) := by
  unfold process_directory
  dsimp only
  rw [List.map_map]
  exact pd_aux_jobs env tfs dirP cb (listdirFiles tfs dirP) [] [] s0

theorem process_directory_state {σ : Type} (env : ExtractEnv) (tfs : FS) (dirP : FPath)
    (cb : σ → FileProcessingJob → σ) (s0 : σ) :
    (process_directory env tfs dirP cb s0).2.2
      = ((listdirFiles tfs dirP).map (runJob env tfs dirP)).foldl cb s0 := by
  unfold process_directory
  dsimp only
  rw [List.map_map]
  exact pd_aux_state env tfs dirP cb (listdirFiles tfs dirP) [] [] s0

theorem foldl_append_log {α : Type} :
    ∀ (l : List α) (a0 : List α), l.foldl (fun acc j => acc ++ [j]) a0 = a0 ++ l := by
  intro l
  induction l with
  | nil => intro a0; simp
  | cons a l ih =>
    intro a0
    rw [List.foldl_cons, ih]
    simp

theorem terminal_count (l : List FileProcessingJob)
    (h : ∀ j ∈ l, j.status = JobStatus.completed ∨ j.status = JobStatus.failed) :
    l.countP (fun j => j.status = JobStatus.completed) +
      l.countP (fun j => j.status = JobStatus.failed) = l.length := by
  induction l with
  | nil => rfl
  | cons a l ih =>
    have ha := h a (List.mem_cons_self a l)
    have ih2 := ih (fun j hj => h j (List.mem_cons_of_mem _ hj))
    rw [List.countP_cons, List.countP_cons, List.length_cons]
    rcases ha with ha | ha <;> simp [ha] <;> omega

theorem get_progress_all_terminal (l : List FileProcessingJob)
    (h : ∀ j ∈ l, j.status = JobStatus.completed ∨ j.status = JobStatus.failed) :
    (get_progress l).progress = 1 := by
  unfold get_progress
  dsimp only
  by_cases hl : l.length > 0
  · rw [if_pos hl]
    have hc := terminal_count l h
    have hne : ((l.length : ℚ)) ≠ 0 := by
      exact_mod_cast Nat.pos_iff_ne_zero.1 hl
    rw [div_eq_one_iff_eq hne]
    exact_mod_cast hc
  · rw [if_neg hl]

/-- C3: running the batch processor over a directory of K files with the
per-job callback produces exactly K jobs, every job ends in a terminal
status (completed or failed), the callback log holds exactly the K jobs in
order, and when exactly one job fails the counts are one failed and K-1
completed; the derived progress fraction is (completed+failed)/total, it
equals 1 once every job is terminal, and it is defined as 1 when total=0. -/
theorem batch_one_failure_counts (env : ExtractEnv) (tfs : FS) (dirP : FPath)
    (hone : ((listdirFiles tfs dirP).map (runJob env tfs dirP)).countP
      (fun j => j.status = JobStatus.failed) = 1) :
    (batchRun env tfs dirP).1.length = (listdirFiles tfs dirP).length ∧
    (∀ j ∈ (batchRun env tfs dirP).1,
      j.status = JobStatus.completed ∨ j.status = JobStatus.failed) ∧
    (batchRun env tfs dirP).2.2 = (batchRun env tfs dirP).1 ∧
    (batchRun env tfs dirP).1.countP (fun j => j.status = JobStatus.failed) = 1 ∧
    (batchRun env tfs dirP).1.countP (fun j => j.status = JobStatus.completed)
      = (listdirFiles tfs dirP).length - 1 ∧
    (get_progress (batchRun env tfs dirP).1).progress = 1 ∧
    (get_progress []).progress = 1 := by
  have hjobs : (batchRun env tfs dirP).1 = (listdirFiles tfs dirP).map (runJob env tfs dirP) :=
    process_directory_jobs env tfs dirP _ _
  have hterm : ∀ j ∈ (batchRun env tfs dirP).1,
      j.status = JobStatus.completed ∨ j.status = JobStatus.failed := by
    intro j hj
    rw [hjobs] at hj
    rcases List.mem_map.1 hj with ⟨p, _, rfl⟩
    exact process_file_terminal env _ _
  have hcount := terminal_count _ hterm
  have hfail : (batchRun env tfs dirP).1.countP (fun j => j.status = JobStatus.failed) = 1 := by
    rw [hjobs]; exact hone
  refine ⟨by rw [hjobs, List.length_map], hterm, ?_, hfail, ?_, get_progress_all_terminal _ hterm, rfl⟩
  · rw [show (batchRun env tfs dirP).2.2
        = ((listdirFiles tfs dirP).map (runJob env tfs dirP)).foldl (fun l j => l ++ [j]) []
      from process_directory_state env tfs dirP _ _, foldl_append_log, hjobs]
    rfl
  · rw [hjobs] at hcount hfail ⊢
    rw [List.length_map] at hcount
    omega

def fsC3 : FS :=
  [(["d", "a.txt"], ⟨"alpha", 3, true⟩), (["d", "c.xyz"], ⟨"x", 1, true⟩)]

def envC3 : ExtractEnv :=
  ⟨Except.ok, Except.ok, Except.ok, Except.ok, Except.ok, false, false⟩

theorem batch_one_failure_counts_witness :
    (batchRun envC3 fsC3 ["d"]).1.length = (listdirFiles fsC3 ["d"]).length ∧
    (∀ j ∈ (batchRun envC3 fsC3 ["d"]).1,
      j.status = JobStatus.completed ∨ j.status = JobStatus.failed) ∧
    (batchRun envC3 fsC3 ["d"]).2.2 = (batchRun envC3 fsC3 ["d"]).1 ∧
    (batchRun envC3 fsC3 ["d"]).1.countP (fun j => j.status = JobStatus.failed) = 1 ∧
    (batchRun envC3 fsC3 ["d"]).1.countP (fun j => j.status = JobStatus.completed)
      = (listdirFiles fsC3 ["d"]).length - 1 ∧
    (get_progress (batchRun envC3 fsC3 ["d"]).1).progress = 1 ∧
    (get_progress []).progress = 1 :=
  batch_one_failure_counts envC3 fsC3 ["d"] (by decide)

/-! ## C4 — rescanning with no changes: filterE and staging lemmas -/

theorem filterE_sublist {ε α : Type} (f : α → Except ε Bool) :
    ∀ (xs l : List α), filterE f xs = Except.ok l → List.Sublist l xs := by
  intro xs
  induction xs with
  | nil =>
    intro l h
    simp only [filterE, Except.ok.injEq] at h
    rw [← h]
  | cons a xs ih =>
    intro l h
    simp only [filterE] at h
    rcases hfa : f a with e | b
    · rw [hfa] at h
      simp [Bind.bind, Except.bind] at h
    · rw [hfa] at h
      rcases hrest : filterE f xs with e | rest
      · rw [hrest] at h
        simp [Bind.bind, Except.bind] at h
      · rw [hrest] at h
        simp only [Bind.bind, Except.bind, pure, Except.pure, Except.ok.injEq] at h
        rw [← h]
        by_cases hb : b = true
        · rw [if_pos hb]
          exact List.Sublist.cons₂ a (ih rest hrest)
        · rw [if_neg hb]
          exact List.Sublist.cons a (ih rest hrest)

theorem filterE_mem_true {ε α : Type} (f : α → Except ε Bool) :
    ∀ (xs l : List α), filterE f xs = Except.ok l → xs.Nodup →
      ∀ x ∈ xs, (x ∈ l → f x = Except.ok true) ∧ (x ∉ l → f x = Except.ok false) := by
  intro xs
  induction xs with
  | nil =>
    intro l h hnd x hx
    simp at hx
  | cons a xs ih =>
    intro l h hnd x hx
    simp only [filterE] at h
    rcases hfa : f a with e | b
    · rw [hfa] at h
      simp [Bind.bind, Except.bind] at h
    · rw [hfa] at h
      rcases hrest : filterE f xs with e | rest
      · rw [hrest] at h
        simp [Bind.bind, Except.bind] at h
      · rw [hrest] at h
        simp only [Bind.bind, Except.bind, pure, Except.pure, Except.ok.injEq] at h
        have hsub := filterE_sublist f xs rest hrest
        have hna : a ∉ xs := (List.nodup_cons.1 hnd).1
        have hnd2 : xs.Nodup := (List.nodup_cons.1 hnd).2
        rcases List.mem_cons.1 hx with rfl | hx2
        · cases b with
          | true =>
            rw [if_pos rfl] at h
            refine ⟨fun _ => hfa, fun hxl => ?_⟩
            exact absurd (h ▸ List.mem_cons_self x rest) hxl
          | false =>
            rw [if_neg (by simp)] at h
            refine ⟨fun hxl => ?_, fun _ => hfa⟩
            rw [← h] at hxl
            exact absurd (hsub.mem hxl) hna
        · have hrec := ih rest hrest hnd2 x hx2
          cases b with
          | true =>
            rw [if_pos rfl] at h
            constructor
            · intro hxl
              rw [← h] at hxl
              rcases List.mem_cons.1 hxl with rfl | hx3
              · exact absurd hx2 hna
              · exact hrec.1 hx3
            · intro hxl
              rw [← h] at hxl
              exact hrec.2 (fun hc => hxl (List.mem_cons_of_mem _ hc))
          | false =>
            rw [if_neg (by simp)] at h
            rw [← h]
            exact hrec

theorem filterE_all_ok {ε α : Type} (f : α → Except ε Bool) (g : α → Bool) :
    ∀ (xs : List α), (∀ x ∈ xs, f x = Except.ok (g x)) →
      filterE f xs = Except.ok (xs.filter g) := by
  intro xs
  induction xs with
  | nil => intro _; rfl
  | cons a xs ih =>
    intro h
    simp only [filterE]
    rw [h a (List.mem_cons_self a xs), ih (fun x hx => h x (List.mem_cons_of_mem _ hx))]
    simp only [Bind.bind, Except.bind, pure, Except.pure, List.filter_cons]

theorem basename_concat (d : FPath) (b : String) : basename (d ++ [b]) = b := by
  simp [basename]

theorem find_basename_self :
    ∀ (F : List FPath), (F.map basename).Nodup →
      ∀ p ∈ F, F.find? (fun q => basename q = basename p) = some p := by
  intro F
  induction F with
  | nil =>
    intro _ p hp
    simp at hp
  | cons a F ih =>
    intro hnd p hp
    rw [List.map_cons, List.nodup_cons] at hnd
    rcases List.mem_cons.1 hp with rfl | hp2
    · exact List.find?_cons_of_pos _ (by simp)
    · have hne : ¬ (basename a = basename p) :=
        fun he => hnd.1 (he ▸ List.mem_map_of_mem basename hp2)
      rw [List.find?_cons_of_neg _ (by simpa using hne)]
      exact ih hnd.2 p hp2

theorem dictGet_stageFS (fs : FS) :
    ∀ (F : List FPath), (F.map basename).Nodup → (∀ q ∈ F, (dictGet fs q).isSome) →
      ∀ p ∈ F, dictGet (stageFS fs F) (temp_dir ++ [basename p]) = dictGet fs p := by
  intro F
  induction F with
  | nil =>
    intro _ _ p hp
    simp at hp
  | cons a F ih =>
    intro hnd hex p hp
    rw [List.map_cons, List.nodup_cons] at hnd
    rcases hfa : dictGet fs a with _ | f
    · exact absurd (hfa ▸ hex a (List.mem_cons_self a F)) (by simp)
    · have hstage : stageFS fs (a :: F) = (temp_dir ++ [basename a], f) :: stageFS fs F := by
        simp [stageFS, hfa]
      rw [hstage, dictGet_cons]
      rcases List.mem_cons.1 hp with rfl | hp2
      · rw [if_pos rfl, hfa]
      · have hne : ¬ basename a = basename p :=
          fun he => hnd.1 (he ▸ List.mem_map_of_mem basename hp2)
        rw [if_neg (fun he : temp_dir ++ [basename a] = temp_dir ++ [basename p] =>
          hne (List.singleton_injective (List.append_cancel_left he)))]
        exact ih hnd.2 (fun q hq => hex q (List.mem_cons_of_mem _ hq)) p hp2

theorem listdirFiles_stageFS (fs : FS) :
    ∀ (F : List FPath), (∀ q ∈ F, (dictGet fs q).isSome) →
      listdirFiles (stageFS fs F) temp_dir = F.map (fun p => temp_dir ++ [basename p]) := by
  intro F
  induction F with
  | nil => intro _; rfl
  | cons a F ih =>
    intro hex
    rcases hfa : dictGet fs a with _ | f
    · exact absurd (hfa ▸ hex a (List.mem_cons_self a F)) (by simp)
    · have hstage : stageFS fs (a :: F) = (temp_dir ++ [basename a], f) :: stageFS fs F := by
        simp [stageFS, hfa]
      rw [hstage]
      have htail : listdirFiles ((temp_dir ++ [basename a], f) :: stageFS fs F) temp_dir
          = (temp_dir ++ [basename a]) :: listdirFiles (stageFS fs F) temp_dir := by
        simp [listdirFiles, List.filter_cons, List.dropLast_concat]
      rw [htail, ih (fun q hq => hex q (List.mem_cons_of_mem _ hq)), List.map_cons]

theorem readFileFS_congr {a b : FS} {x y : FPath} (h : dictGet a x = dictGet b y) :
    readFileFS a x = readFileFS b y := by
  unfold readFileFS
  rw [h]

theorem process_file_filename (env : ExtractEnv) (rb : Except String String)
    (j : FileProcessingJob) : (process_file env rb j).filename = j.filename := by
  unfold process_file
  dsimp only
  repeat' split
  all_goals rfl

theorem process_file_completed_result (env : ExtractEnv) (rb : Except String String)
    (j : FileProcessingJob) (h : (process_file env rb j).status = JobStatus.completed) :
    (process_file env rb j).result.isSome := by
  unfold process_file at h ⊢
  dsimp only at h ⊢
  repeat' split at h
  all_goals simp_all

/-- A current FileRecord: present in the file map with the hash the file
has on disk right now. -/
def goodRec (md5 : String → String) (fs : FS) (idx : FileIndexState) (p : FPath) : Prop :=
  ∃ rec, dictGet idx.files p = some rec ∧ get_file_hash md5 fs p = Except.ok rec.hash

theorem fnu_of_goodRec {md5 : String → String} {fs : FS} {idx : FileIndexState} {p : FPath}
    (h : goodRec md5 fs idx p) :
    file_needs_update md5 fs idx p = Except.ok false := by
  obtain ⟨rec, hget, hh⟩ := h
  unfold file_needs_update
  rw [hget]
  simp only [hh, Bind.bind, Except.bind, pure, Except.pure]
  simp

theorem fnu_congr {md5 : String → String} {fs : FS} {a b : FileIndexState} {p : FPath}
    (h : dictGet a.files p = dictGet b.files p) :
    file_needs_update md5 fs a p = file_needs_update md5 fs b p := by
  unfold file_needs_update
  rw [h]

theorem callback_commit (md5 : String → String) (fs : FS) (F : List FPath)
    (hnd : (F.map basename).Nodup) (p : FPath) (hp : p ∈ F)
    (hex : (dictGet fs p).isSome)
    (j : FileProcessingJob) (hst : j.status = JobStatus.completed)
    (hres : j.result.isSome) (hfn : j.filename = basename p)
    (idx : FileIndexState) :
    goodRec md5 fs (update_index_callback md5 fs F idx j) p ∧
    ∀ q, q ≠ p → dictGet (update_index_callback md5 fs F idx j).files q
      = dictGet idx.files q := by
  unfold update_index_callback
  rw [if_pos ⟨hst, hres⟩]
  rcases hr : j.result with _ | r
  · rw [hr] at hres
    simp at hres
  · rw [hfn, find_basename_self F hnd p hp]
    dsimp only
    rcases hget : dictGet fs p with _ | f
    · rw [hget] at hex
      simp at hex
    · have hhash : ∃ hs, get_file_hash md5 fs p = Except.ok hs := by
        unfold get_file_hash
        rw [hget]
        by_cases hrd : f.readable = true
        · exact ⟨md5 f.content, by simp [hrd]⟩
        · exact ⟨toString f.mtime, by simp [hrd]⟩
      obtain ⟨hs, hhash⟩ := hhash
      have hsize : get_size fs p = Except.ok f.content.length := by
        unfold get_size
        rw [hget]
      have hadd : add_file md5 fs idx p r = Except.ok
          { files := dictInsert idx.files p ⟨p, basename p, hs, r.type_, f.content.length⟩,
            directories := dirsAfterAdd idx p } := by
        unfold add_file
        rw [hhash, hsize]
        simp only [Bind.bind, Except.bind, pure, Except.pure]
      rw [hadd]
      simp only [Except.toOption, Option.getD_some]
      constructor
      · exact ⟨_, dictGet_insert_self _ _ _, hhash⟩
      · intro q hq
        exact dictGet_insert_ne _ _ _ _ (Ne.symm hq)

theorem commit_fold (md5 : String → String) (fs : FS) (F : List FPath)
    (hnd : (F.map basename).Nodup)
    (hex : ∀ q ∈ F, (dictGet fs q).isSome)
    (jb : FPath → FileProcessingJob)
    (hjb : ∀ q ∈ F, (jb q).status = JobStatus.completed ∧ (jb q).result.isSome ∧
      (jb q).filename = basename q) :
    ∀ (G : List FPath), (∀ q ∈ G, q ∈ F) →
      ∀ (idx0 : FileIndexState) (p : FPath),
        (p ∈ G →
          goodRec md5 fs ((G.map jb).foldl (update_index_callback md5 fs F) idx0) p) ∧
        (p ∉ G →
          dictGet ((G.map jb).foldl (update_index_callback md5 fs F) idx0).files p
            = dictGet idx0.files p) := by
  intro G
  induction G with
  | nil =>
    intro _ idx0 p
    exact ⟨fun h => absurd h (List.not_mem_nil p), fun _ => rfl⟩
  | cons a G ih =>
    intro hG idx0 p
    rw [List.map_cons, List.foldl_cons]
    have haF := hG a (List.mem_cons_self a G)
    have hstep := callback_commit md5 fs F hnd a haF (hex a haF) (jb a)
      (hjb a haF).1 (hjb a haF).2.1 (hjb a haF).2.2 idx0
    have ihp := ih (fun q hq => hG q (List.mem_cons_of_mem _ hq))
      (update_index_callback md5 fs F idx0 (jb a)) p
    constructor
    · intro hp
      rcases List.mem_cons.1 hp with rfl | hp2
      · by_cases hpG : p ∈ G
        · exact ihp.1 hpG
        · obtain ⟨rec, hrec, hh⟩ := hstep.1
          exact ⟨rec, by rw [ihp.2 hpG]; exact hrec, hh⟩
      · exact ihp.1 hp2
    · intro hp
      have hpa : p ≠ a := fun he => hp (he ▸ List.mem_cons_self a G)
      have hpG : p ∉ G := fun hq => hp (List.mem_cons_of_mem _ hq)
      exact (ihp.2 hpG).trans (hstep.2 p hpa)

theorem index_directory_run1 (md5 : String → String) (env : ExtractEnv) (fs : FS)
    (st : BuilderState) (dir : FPath) (st1 : BuilderState) (res1 : IndexResult)
    (hrun : index_directory md5 env fs st dir false = Except.ok (st1, res1)) :
    ∃ l, filterE (file_needs_update md5 fs st.index) (walkFiles fs dir) = Except.ok l ∧
      res1.total_files = (walkFiles fs dir).length ∧
      res1.skipped = (walkFiles fs dir).length - l.length ∧
      ((l = [] ∧ st1 = st) ∨
       (l ≠ [] ∧ st1.index = ((listdirFiles (stageFS fs l) temp_dir).map
           (runJob env (stageFS fs l) temp_dir)).foldl
             (update_index_callback md5 fs l) st.index)) := by
  unfold index_directory at hrun
  simp only [Bind.bind, Except.bind] at hrun
  rw [show (fun q : FPath => if false = true then (pure true : Except Unit Bool)
      else file_needs_update md5 fs st.index q) = file_needs_update md5 fs st.index from
    funext (fun q => by simp)] at hrun
  rcases hfE : filterE (file_needs_update md5 fs st.index) (walkFiles fs dir) with _ | l
  · simp [hfE] at hrun
  · simp only [hfE] at hrun
    refine ⟨l, rfl, ?_⟩
    by_cases hemp : l.isEmpty = true
    · rw [if_pos hemp] at hrun
      simp only [pure, Except.pure, Except.ok.injEq, Prod.mk.injEq] at hrun
      refine ⟨by rw [← hrun.2], by rw [← hrun.2], Or.inl ⟨List.isEmpty_iff.1 hemp, hrun.1.symm⟩⟩
    · rw [if_neg hemp] at hrun
      simp only [pure, Except.pure, Except.ok.injEq, Prod.mk.injEq] at hrun
      refine ⟨by rw [← hrun.2], by rw [← hrun.2],
        Or.inr ⟨fun hc => hemp (by rw [hc]; rfl), ?_⟩⟩
      rw [← hrun.1]
      exact process_directory_state env (stageFS fs l) temp_dir
        (update_index_callback md5 fs l) st.index

/-- C4 (amended): in every run of index_directory the returned skipped
count is totalFiles minus the number of files needing update; and when the
staged basenames are distinct and every walked file extracts successfully,
a second run with no file changes returns the state of the first run
unchanged together with indexed = 0, errors = 0 and skipped = totalFiles.
Without the success hypothesis the second-run part fails: a file whose job
fails is never committed and still needs update on the second run. -/
theorem index_directory_rescan (md5 : String → String) (env : ExtractEnv) (fs : FS)
    (st : BuilderState) (dir : FPath)
    (hnb : ((walkFiles fs dir).map basename).Nodup)
    (hok : ∀ p ∈ walkFiles fs dir,
      (process_file env (readFileFS fs p)
        (mkJob (basename p, get_file_type (basename p)))).status = JobStatus.completed)
    (st1 : BuilderState) (res1 : IndexResult)
    (hrun1 : index_directory md5 env fs st dir false = Except.ok (st1, res1)) :
    (∃ l, filterE (file_needs_update md5 fs st.index) (walkFiles fs dir) = Except.ok l ∧
      res1.total_files = (walkFiles fs dir).length ∧
      res1.skipped = (walkFiles fs dir).length - l.length) ∧
    index_directory md5 env fs st1 dir false
      = Except.ok (st1, ⟨dir, (walkFiles fs dir).length, 0, 0, (walkFiles fs dir).length⟩) := by
  obtain ⟨l, hfE, htot, hskip, hbr⟩ := index_directory_run1 md5 env fs st dir st1 res1 hrun1
  refine ⟨⟨l, hfE, htot, hskip⟩, ?_⟩
  have hwalknd : (walkFiles fs dir).Nodup := List.Nodup.of_map basename hnb
  have hlsub := filterE_sublist _ _ _ hfE
  have hlmem : ∀ q ∈ l, q ∈ walkFiles fs dir := fun q hq => hlsub.subset hq
  have hlndb : (l.map basename).Nodup := List.Nodup.sublist (hlsub.map basename) hnb
  have hlex : ∀ q ∈ l, (dictGet fs q).isSome := fun q hq => walkFiles_isSome (hlmem q hq)
  have hkey : ∀ p ∈ walkFiles fs dir,
      file_needs_update md5 fs st1.index p = Except.ok false := by
    intro p hp
    rcases hbr with ⟨hlnil, rfl⟩ | ⟨hlne, hst1⟩
    · subst hlnil
      exact (filterE_mem_true _ _ _ hfE hwalknd p hp).2 (List.not_mem_nil p)
    · rw [listdirFiles_stageFS fs l hlex, List.map_map] at hst1
      have hjb : ∀ q ∈ l,
          (runJob env (stageFS fs l) temp_dir (temp_dir ++ [basename q])).status
            = JobStatus.completed ∧
          (runJob env (stageFS fs l) temp_dir (temp_dir ++ [basename q])).result.isSome ∧
          (runJob env (stageFS fs l) temp_dir (temp_dir ++ [basename q])).filename
            = basename q := by
        intro q hq
        have hbn : basename (temp_dir ++ [basename q]) = basename q := basename_concat _ _
        have hread : readFileFS (stageFS fs l) (temp_dir ++ [basename q])
            = readFileFS fs q :=
          readFileFS_congr (dictGet_stageFS fs l hlndb hlex q hq)
        have hjbeq : runJob env (stageFS fs l) temp_dir (temp_dir ++ [basename q])
            = process_file env (readFileFS fs q)
              (mkJob (basename q, get_file_type (basename q))) := by
          rw [show runJob env (stageFS fs l) temp_dir (temp_dir ++ [basename q])
              = process_file env (readFileFS (stageFS fs l)
                  (temp_dir ++ [basename (temp_dir ++ [basename q])]))
                (mkJob (basename (temp_dir ++ [basename q]),
                  get_file_type (basename (temp_dir ++ [basename q])))) from rfl]
          rw [hbn, hread]
        rw [hjbeq]
        refine ⟨hok q (hlmem q hq),
          process_file_completed_result env _ _ (hok q (hlmem q hq)), ?_⟩
        rw [process_file_filename]
        rfl
      have hfold := commit_fold md5 fs l hlndb hlex
        (fun q => runJob env (stageFS fs l) temp_dir (temp_dir ++ [basename q])) hjb
        l (fun q hq => hq) st.index p
      by_cases hpl : p ∈ l
      · apply fnu_of_goodRec
        obtain ⟨rec, hrec, hh⟩ := hfold.1 hpl
        exact ⟨rec, by rw [hst1]; exact hrec, hh⟩
      · have hfu0 := (filterE_mem_true _ _ _ hfE hwalknd p hp).2 hpl
        have hsame : dictGet st1.index.files p = dictGet st.index.files p := by
          rw [hst1]
          exact hfold.2 hpl
        exact (fnu_congr hsame).trans hfu0
  have hfE2 : filterE (file_needs_update md5 fs st1.index) (walkFiles fs dir)
      = Except.ok [] := by
    have hall := filterE_all_ok (file_needs_update md5 fs st1.index) (fun _ => false)
      (walkFiles fs dir) (fun p hp => hkey p hp)
    simpa using hall
  unfold index_directory
  simp only [Bind.bind, Except.bind]
  rw [show (fun q : FPath => if false = true then (pure true : Except Unit Bool)
      else file_needs_update md5 fs st1.index q) = file_needs_update md5 fs st1.index from
    funext (fun q => by simp), hfE2]
  rfl

def envC4 : ExtractEnv :=
  ⟨Except.ok, Except.ok, Except.ok, Except.ok, Except.ok, false, false⟩

/-- One file whose extension no handler supports: its job fails in every
run, it is never committed, and it needs update forever. -/
def fsC4 : FS := [(["r", "b.xyz"], ⟨"x", 1, true⟩)]

/-- C4 (counterexample): with a single unsupported file, the second
force_update = false run still reports skipped = 0 while totalFiles = 1
(the file keeps needing an update because its failed job was never
committed), refuting second-run skipped = totalFiles. -/
theorem second_run_counterexample :
    ((index_directory (fun s => s) envC4 fsC4 ⟨emptyIndex, []⟩ ["r"] false).toOption.bind
      (fun pr => (index_directory (fun s => s) envC4 fsC4 pr.1 ["r"] false).toOption)).map
      (fun pr => (pr.2.total_files, pr.2.indexed, pr.2.skipped)) = some (1, 0, 0) := by
  decide

def fsW4 : FS := [(["r", "a.txt"], ⟨"hi", 1, true⟩)]

def stW4 : BuilderState :=
  ⟨⟨[(["r", "a.txt"], ⟨["r", "a.txt"], "a.txt", "hi", "text", 2⟩)],
    [(["r"], [["r", "a.txt"]])]⟩,
   [⟨"a.txt", "text", JobStatus.completed, none, some ⟨"a.txt", "hi", "text"⟩⟩]⟩

def resW4 : IndexResult := ⟨["r"], 1, 1, 0, 0⟩

theorem index_directory_rescan_witness :
    (∃ l, filterE (file_needs_update (fun s => s) fsW4
          (BuilderState.mk emptyIndex []).index)
        (walkFiles fsW4 ["r"]) = Except.ok l ∧
      resW4.total_files = (walkFiles fsW4 ["r"]).length ∧
      resW4.skipped = (walkFiles fsW4 ["r"]).length - l.length) ∧
    index_directory (fun s => s) envC4 fsW4 stW4 ["r"] false
      = Except.ok (stW4, ⟨["r"], (walkFiles fsW4 ["r"]).length, 0, 0,
          (walkFiles fsW4 ["r"]).length⟩) :=
  index_directory_rescan (fun s => s) envC4 fsW4 ⟨emptyIndex, []⟩ ["r"] (by decide)
    (by decide) stW4 resW4 (by decide)

/-! ## C9 — FileProcessor.chunk_document

The while loop is modelled with explicit fuel: `none` means the fuel ran
out with the loop still running, so a result of `none` at every fuel is
non-termination.  Python slicing and indexing (negative indices wrap,
slices clamp) are modelled by `pyCharAt` and `pySlice`; an index outside
the wrapped range yields `none` from `pyCharAt` and the scan just moves
on (for the ranges `range(end, max(end-100, start), -1)` scanned here the
index is always in range, so no IndexError behaviour is lost). -/

def pyCharAt (cs : List Char) (i : Int) : Option Char :=
  let n : Int := cs.length
  let j := if i < 0 then n + i else i
  if 0 ≤ j ∧ j < n then cs.get? j.toNat else none

def pySlice (cs : List Char) (a b : Int) : List Char :=
  let n : Int := cs.length
  let lo := if a < 0 then max 0 (n + a) else min a n
  let hi := if b < 0 then max 0 (n + b) else min b n
  (cs.take hi.toNat).drop lo.toNat

/-- The break-point scan of chunk_document: walk i downwards from `end`,
return the first i holding a sentence break. -/
def findBreak (cs : List Char) : Nat → Int → Option Int
  | 0, _ => none
  | k + 1, i =>
    match pyCharAt cs i with
    | some c =>
      if c = '.' ∨ c = '\n' ∨ c = '!' ∨ c = '?' then some i
      else findBreak cs k (i - 1)
    | none => findBreak cs k (i - 1)

/-- One iteration of the while body: the chunk appended and the new
`start` (= end - overlap). -/
def chunkStep (cs : List Char) (cz ov : Int) (start : Int) : List Char × Int :=
  let n : Int := cs.length
  let e0 := min (start + cz) n
  let e1 :=
    if e0 < n then
      match findBreak cs (e0 - max (e0 - 100) start).toNat e0 with
      | some i => i + 1
      | none => e0
    else e0
  (pySlice cs start e1, e1 - ov)

def chunkLoop (cs : List Char) (cz ov : Int) :
    Nat → Int → List (List Char) → Option (List (List Char))
  | 0, _, _ => none
  | fuel + 1, start, acc =>
    if start < (cs.length : Int) then
      chunkLoop cs cz ov fuel (chunkStep cs cz ov start).2
        (acc ++ [(chunkStep cs cz ov start).1])
    else some acc

def chunk_document (cs : List Char) (cz ov : Int) (fuel : Nat) :
    Option (List (List Char)) :=
  chunkLoop cs cz ov fuel 0 []

theorem pyCharAt_some_lt {cs : List Char} {i : Int} {c : Char}
    (h : pyCharAt cs i = some c) : i < (cs.length : Int) := by
  unfold pyCharAt at h
  dsimp only at h
  by_cases hneg : i < 0
  · have : (0:Int) ≤ (cs.length : Int) := Int.natCast_nonneg _
    omega
  · rw [if_neg hneg] at h
    by_cases hin : (0:Int) ≤ i ∧ i < (cs.length : Int)
    · exact hin.2
    · rw [if_neg hin] at h
      exact absurd h (by simp)

theorem findBreak_lt (cs : List Char) :
    ∀ (k : Nat) (i r : Int), findBreak cs k i = some r → r < (cs.length : Int) := by
  intro k
  induction k with
  | zero =>
    intro i r h
    exact absurd h (by simp [findBreak])
  | succ k ih =>
    intro i r h
    simp only [findBreak] at h
    rcases hc : pyCharAt cs i with _ | c
    · rw [hc] at h
      exact ih _ _ h
    · rw [hc] at h
      dsimp only at h
      by_cases hbr : c = '.' ∨ c = '\n' ∨ c = '!' ∨ c = '?'
      · rw [if_pos hbr] at h
        rw [← Option.some.inj h]
        exact pyCharAt_some_lt hc
      · rw [if_neg hbr] at h
        exact ih _ _ h

theorem chunkStep_snd_lt (cs : List Char) (start : Int) :
    (chunkStep cs 1000 200 start).2 < (cs.length : Int) := by
  unfold chunkStep
  dsimp only
  have he0 : min (start + 1000) (cs.length : Int) ≤ (cs.length : Int) := min_le_right _ _
  by_cases hlt : min (start + 1000) (cs.length : Int) < (cs.length : Int)
  · rw [if_pos hlt]
    rcases hfb : findBreak cs
        (min (start + 1000) (cs.length : Int) -
          max (min (start + 1000) (cs.length : Int) - 100) start).toNat
        (min (start + 1000) (cs.length : Int)) with _ | i
    · show min (start + 1000) (cs.length : Int) - 200 < (cs.length : Int)
      omega
    · show i + 1 - 200 < (cs.length : Int)
      have := findBreak_lt cs _ _ _ hfb
      omega
  · rw [if_neg hlt]
    omega

theorem chunkLoop_none (cs : List Char) :
    ∀ (fuel : Nat) (start : Int) (acc : List (List Char)),
      start < (cs.length : Int) → chunkLoop cs 1000 200 fuel start acc = none := by
  intro fuel
  induction fuel with
  | zero => intro start acc _; rfl
  | succ fuel ih =>
    intro start acc h
    simp only [chunkLoop]
    rw [if_pos h]
    exact ih _ _ (chunkStep_snd_lt cs start)

/-- C9: chunk_document never terminates on a non-empty text with the
default parameters chunk_size = 1000, overlap = 200: after every
iteration start = end - 200 ≤ len(text) - 200 < len(text), so the loop
condition start < len(text) holds forever; with any amount of fuel the
loop is still running. -/
theorem chunk_document_diverges (cs : List Char) (hne : cs ≠ []) (fuel : Nat) :
    chunk_document cs 1000 200 fuel = none := by
  have hpos : 0 < (cs.length : Int) := by
    have := List.length_pos.2 hne
    omega
  exact chunkLoop_none cs fuel 0 [] hpos

theorem chunk_document_diverges_witness :
    (['a'] : List Char) ≠ [] ∧ chunk_document ['a'] 1000 200 5 = none :=
  ⟨by decide, chunk_document_diverges ['a'] (by decide) 5⟩

/-! ## C7 — search_files snippet extraction (app.py)

Strings are lists of characters; str.lower is per-character lowering and
str.replace flattens newlines character by character.  The Python find
loop (`pos = find(term); while pos != -1: append; pos = find(term, pos+1)`)
enumerates, in increasing order, exactly the positions at which the term
is a prefix of the rest, overlaps included; `occurrences` lists those
positions directly.  max(0, pos - context_size) is truncated Nat
subtraction. -/

def replNL (c : Char) : Char := if c = '\n' then ' ' else c

def toLowerFlat (cs : List Char) : List Char := (cs.map replNL).map Char.toLower

def stripWS (cs : List Char) : List Char :=
  ((cs.dropWhile Char.isWhitespace).reverse.dropWhile Char.isWhitespace).reverse

def occurrences (hay t : List Char) : List Nat :=
  (List.range (hay.length + 1)).filter (fun p => t.isPrefixOf (hay.drop p))

def termPositions (content : List Char) (qts : List (List Char)) : List (Nat × Nat) :=
  qts.foldl (fun acc t =>
    acc ++ (occurrences (toLowerFlat content) t).map (fun p => (p, t.length))) []

/-- list.sort() on (pos, len) pairs: lexicographic order. -/
def posLE (a b : Nat × Nat) : Prop := a.1 < b.1 ∨ (a.1 = b.1 ∧ a.2 ≤ b.2)

instance : DecidableRel posLE := fun a b => by
  unfold posLE
  infer_instance

def sortedPositions (content : List Char) (qts : List (List Char)) : List (Nat × Nat) :=
  (termPositions content qts).insertionSort posLE

def windowStart (context_size : Nat) (ip : Nat × (Nat × Nat)) : Nat :=
  ip.2.1 - context_size

def windowEnd (content : List Char) (context_size : Nat) (ip : Nat × (Nat × Nat)) : Nat :=
  min content.length (ip.2.1 + ip.2.2 + context_size)

/-- terms_in_snippet of the hit `ip` (an (index, (pos, len)) entry): one for
the hit itself plus every other entry starting inside its window. -/
def termsInWindow (content : List Char) (qts : List (List Char)) (context_size : Nat)
    (ip : Nat × (Nat × Nat)) : Nat :=
  1 + ((sortedPositions content qts).enum.filter (fun jp =>
    jp.1 ≠ ip.1 ∧ windowStart context_size ip ≤ jp.2.1 ∧
      jp.2.1 < windowEnd content context_size ip)).length

/-- The (best_score, best_start) fold with strict improvement. -/
def bestPair (content : List Char) (qts : List (List Char)) (context_size : Nat) :
    Nat × Nat :=
  (sortedPositions content qts).enum.foldl (fun best ip =>
    if termsInWindow content qts context_size ip > best.1
    then (termsInWindow content qts context_size ip, windowStart context_size ip)
    else best) (0, 0)

def find_relevant_snippet (content : List Char) (query_terms : List (List Char))
    (context_size : Nat) : List Char :=
  if content = [] ∨ query_terms = [] then []
  else if termPositions content query_terms = [] then []
  else
    stripWS (((content.take (min content.length
        ((bestPair content query_terms context_size).2 + context_size * 2))).drop
      (bestPair content query_terms context_size).2).map replNL)

/-- The search_files caller: the computed snippet, or the first-100-chars
fallback when no term was found. -/
def snippetFor (content : List Char) (query_terms : List (List Char)) : List Char :=
  if find_relevant_snippet content query_terms 50 = [] then
    stripWS ((content.take 100).map replNL)
  else find_relevant_snippet content query_terms 50

theorem mem_foldl_append {α β : Type} (h : α → List β) :
    ∀ (l : List α) (acc : List β) (x : β),
      x ∈ l.foldl (fun a t => a ++ h t) acc ↔ x ∈ acc ∨ ∃ t ∈ l, x ∈ h t := by
  intro l
  induction l with
  | nil =>
    intro acc x
    simp
  | cons a l ih =>
    intro acc x
    rw [List.foldl_cons, ih]
    constructor
    · rintro (hx | ⟨t, ht, hx⟩)
      · rcases List.mem_append.1 hx with hx | hx
        · exact Or.inl hx
        · exact Or.inr ⟨a, List.mem_cons_self a l, hx⟩
      · exact Or.inr ⟨t, List.mem_cons_of_mem _ ht, hx⟩
    · rintro (hx | ⟨t, ht, hx⟩)
      · exact Or.inl (List.mem_append.2 (Or.inl hx))
      · rcases List.mem_cons.1 ht with rfl | ht2
        · exact Or.inl (List.mem_append.2 (Or.inr hx))
        · exact Or.inr ⟨t, ht2, hx⟩

theorem mem_termPositions (content : List Char) (qts : List (List Char))
    (p l : Nat) :
    (p, l) ∈ termPositions content qts ↔
      ∃ t ∈ qts, l = t.length ∧ p ≤ (toLowerFlat content).length ∧
        t.isPrefixOf ((toLowerFlat content).drop p) := by
  unfold termPositions
  rw [mem_foldl_append]
  simp only [List.not_mem_nil, false_or]
  constructor
  · rintro ⟨t, ht, hx⟩
    rcases List.mem_map.1 hx with ⟨q, hq, hqe⟩
    have h1 : q = p := congrArg Prod.fst hqe
    have h2 : t.length = l := congrArg Prod.snd hqe
    subst h1
    subst h2
    have hq2 := List.mem_filter.1 hq
    exact ⟨t, ht, rfl, Nat.lt_succ_iff.1 (List.mem_range.1 hq2.1), hq2.2⟩
  · rintro ⟨t, ht, hl, hle, hpre⟩
    refine ⟨t, ht, List.mem_map.2 ⟨p,
      List.mem_filter.2 ⟨List.mem_range.2 (Nat.lt_succ_of_le hle), hpre⟩, ?_⟩⟩
    rw [hl]

theorem foldl_argmax {α : Type} (f g : α → Nat) :
    ∀ (l : List α) (b : Nat × Nat),
      (l.foldl (fun best x => if f x > best.1 then (f x, g x) else best) b = b ∧
        ∀ x ∈ l, f x ≤ b.1) ∨
      (∃ x ∈ l, l.foldl (fun best x => if f x > best.1 then (f x, g x) else best) b
          = (f x, g x) ∧ b.1 < f x ∧ ∀ y ∈ l, f y ≤ f x) := by
  intro l
  induction l with
  | nil =>
    intro b
    left
    exact ⟨rfl, by simp⟩
  | cons a l ih =>
    intro b
    rw [List.foldl_cons]
    by_cases ha : f a > b.1
    · rw [if_pos ha]
      rcases ih (f a, g a) with ⟨heq, hall⟩ | ⟨x, hx, heq, hlt, hall⟩
      · right
        refine ⟨a, List.mem_cons_self a l, heq, ha, fun y hy => ?_⟩
        rcases List.mem_cons.1 hy with rfl | hy2
        · exact le_refl _
        · exact hall y hy2
      · right
        refine ⟨x, List.mem_cons_of_mem _ hx, heq, lt_trans ha hlt, fun y hy => ?_⟩
        rcases List.mem_cons.1 hy with rfl | hy2
        · exact le_of_lt hlt
        · exact hall y hy2
    · rw [if_neg ha]
      rcases ih b with ⟨heq, hall⟩ | ⟨x, hx, heq, hlt, hall⟩
      · left
        refine ⟨heq, fun y hy => ?_⟩
        rcases List.mem_cons.1 hy with rfl | hy2
        · exact Nat.le_of_not_lt ha
        · exact hall y hy2
      · right
        refine ⟨x, List.mem_cons_of_mem _ hx, heq, hlt, fun y hy => ?_⟩
        rcases List.mem_cons.1 hy with rfl | hy2
        · exact le_trans (Nat.le_of_not_lt ha) (le_of_lt hlt)
        · exact hall y hy2

theorem termsInWindow_pos (content : List Char) (qts : List (List Char))
    (context_size : Nat) (ip : Nat × (Nat × Nat)) :
    1 ≤ termsInWindow content qts context_size ip :=
  Nat.le_add_right 1 _

theorem bestPair_argmax (content : List Char) (qts : List (List Char))
    (context_size : Nat) (hne : termPositions content qts ≠ []) :
    ∃ ip ∈ (sortedPositions content qts).enum,
      bestPair content qts context_size
        = (termsInWindow content qts context_size ip, windowStart context_size ip) ∧
      ∀ jp ∈ (sortedPositions content qts).enum,
        termsInWindow content qts context_size jp
          ≤ termsInWindow content qts context_size ip := by
  have hsne : (sortedPositions content qts).enum ≠ [] := by
    intro hc
    apply hne
    have hlen := congrArg List.length hc
    rw [List.enum_length] at hlen
    have hperm := List.perm_insertionSort posLE (termPositions content qts)
    have := hperm.length_eq
    unfold sortedPositions at hlen
    rw [hlen] at this
    exact List.length_eq_zero.1 this.symm
  rcases foldl_argmax (termsInWindow content qts context_size)
      (windowStart context_size) (sortedPositions content qts).enum (0, 0) with
    ⟨_, hall⟩ | ⟨x, hx, heq, _, hall⟩
  · rcases List.exists_mem_of_ne_nil _ hsne with ⟨x, hx⟩
    have h1 := termsInWindow_pos content qts context_size x
    have h0 := hall x hx
    omega
  · exact ⟨x, hx, heq, hall⟩

theorem termPositions_nil (content : List Char) (qts : List (List Char))
    (h : ∀ t ∈ qts, occurrences (toLowerFlat content) t = []) :
    termPositions content qts = [] := by
  unfold termPositions
  have aux : ∀ (l : List (List Char)) (acc : List (Nat × Nat)),
      (∀ t ∈ l, occurrences (toLowerFlat content) t = []) →
      l.foldl (fun a t =>
        a ++ (occurrences (toLowerFlat content) t).map (fun p => (p, t.length))) acc
        = acc := by
    intro l
    induction l with
    | nil => intro acc _; rfl
    | cons a l ih =>
      intro acc hl
      rw [List.foldl_cons, hl a (List.mem_cons_self a l)]
      simp only [List.map_nil, List.append_nil]
      exact ih acc (fun t ht => hl t (List.mem_cons_of_mem _ ht))
  exact aux qts [] h

def foxContent : List Char :=
  ("Fox watchers waited at the edge of the field for hours." ++
   " Near the river the fox jumps over the lazy dog at dawn.").toList

def foxTerms : List (List Char) := ["fox".toList, "jumps".toList]

set_option maxRecDepth 40000 in
/-- C7: snippet extraction: (i) the scan locates exactly the
case-insensitive occurrences of every query term in the newline-flattened
content, overlaps included; (ii) the returned snippet is the
newline-flattened, stripped, at-most-100-character slice of the original
content starting at the window start of a hit whose fixed-radius window
holds the greatest number of term occurrences; (iii) on the fox/jumps
content the isolated early "Fox" hit loses to the later cluster and the
returned snippet contains both "fox" and "jumps" together; (iv) when no
term occurs in the content the caller falls back to the flattened,
stripped 100-character prefix. -/
theorem snippet_extraction_spec (content : List Char) (qts : List (List Char))
    (hc : content ≠ []) (hq : qts ≠ []) (hne : termPositions content qts ≠ []) :
    (∀ p l, (p, l) ∈ termPositions content qts ↔
      ∃ t ∈ qts, l = t.length ∧ p ≤ (toLowerFlat content).length ∧
        t.isPrefixOf ((toLowerFlat content).drop p)) ∧
    (∃ ip ∈ (sortedPositions content qts).enum,
      (∀ jp ∈ (sortedPositions content qts).enum,
        termsInWindow content qts 50 jp ≤ termsInWindow content qts 50 ip) ∧
      find_relevant_snippet content qts 50
        = stripWS (((content.take (min content.length (windowStart 50 ip + 50 * 2))).drop
            (windowStart 50 ip)).map replNL)) ∧
    ((0, 3) ∈ termPositions foxContent foxTerms ∧
      occurrences (toLowerFlat (snippetFor foxContent foxTerms)) ("fox".toList) ≠ [] ∧
      occurrences (toLowerFlat (snippetFor foxContent foxTerms)) ("jumps".toList) ≠ []) ∧
    (∀ c2 : List Char, (∀ t ∈ qts, occurrences (toLowerFlat c2) t = []) →
      snippetFor c2 qts = stripWS ((c2.take 100).map replNL)) := by
  refine ⟨mem_termPositions content qts, ?_, by decide, ?_⟩
  · obtain ⟨ip, hip, heq, hmax⟩ := bestPair_argmax content qts 50 hne
    refine ⟨ip, hip, hmax, ?_⟩
    unfold find_relevant_snippet
    rw [if_neg (not_or.2 ⟨hc, hq⟩), if_neg hne, heq]
  · intro c2 hall
    have h0 := termPositions_nil c2 qts hall
    have hfind : find_relevant_snippet c2 qts 50 = [] := by
      unfold find_relevant_snippet
      by_cases hg : c2 = [] ∨ qts = []
      · rw [if_pos hg]
      · rw [if_neg hg, if_pos h0]
    unfold snippetFor
    rw [if_pos hfind]

set_option maxRecDepth 40000 in
theorem snippet_extraction_spec_witness :
    (∀ p l, (p, l) ∈ termPositions foxContent foxTerms ↔
      ∃ t ∈ foxTerms, l = t.length ∧ p ≤ (toLowerFlat foxContent).length ∧
        t.isPrefixOf ((toLowerFlat foxContent).drop p)) ∧
    (∃ ip ∈ (sortedPositions foxContent foxTerms).enum,
      (∀ jp ∈ (sortedPositions foxContent foxTerms).enum,
        termsInWindow foxContent foxTerms 50 jp ≤ termsInWindow foxContent foxTerms 50 ip) ∧
      find_relevant_snippet foxContent foxTerms 50
        = stripWS (((foxContent.take (min foxContent.length
            (windowStart 50 ip + 50 * 2))).drop (windowStart 50 ip)).map replNL)) ∧
    ((0, 3) ∈ termPositions foxContent foxTerms ∧
      occurrences (toLowerFlat (snippetFor foxContent foxTerms)) ("fox".toList) ≠ [] ∧
      occurrences (toLowerFlat (snippetFor foxContent foxTerms)) ("jumps".toList) ≠ []) ∧
    (∀ c2 : List Char, (∀ t ∈ foxTerms, occurrences (toLowerFlat c2) t = []) →
      snippetFor c2 foxTerms = stripWS ((c2.take 100).map replNL)) :=
  snippet_extraction_spec foxContent foxTerms (by decide) (by decide) (by decide)
